import Mathlib

/-!
WebServer (cpp_utils/WebServer.cpp): routing, request parsing and the response lifecycle

A shallow embedding of `WebServer.cpp`.  Each definition below is the translation of
the C++ function of the same name; the state a C++ method mutates is passed in and
returned explicitly.

Conventions of the embedding

* `std::string` is a list of characters (`Str`).  Strings are taken to be free of an
  embedded NUL, so `c_str()` is the identity and `mgStrToString` copies its argument.
* `std::map<std::string, std::string>` is a list of entries kept in increasing key order
  with unique keys (`StrMap`); iteration visits the entries in list order.
* The calls into the Mongoose engine made on a connection (`mg_send_head`, `mg_send`) are
  recorded, in order, in the field `wire` of the connection.
* `std::regex` / `std::regex_search` are library code; the search is a parameter
  (`RegexSearch`) of every definition that consults a pattern, and the constructor of
  `std::regex`, which throws on an ill-formed pattern, is a parameter (`RegexAccepts`) of
  every definition that builds one.  A call that ends in a thrown exception returns `none`.
* `ESP_LOGD` / `ESP_LOGE` only write diagnostics and are left out.
-/

namespace WebServer

/-- The type `std::string`. -/
abbrev Str := List Char

/-- The type `std::map<std::string, std::string>`: entries in increasing key order. -/
abbrev StrMap := List (Str × Str)

/-- The assignment `m[k] = v` on a `std::map`: overwrite the entry with key `k` when there
is one, insert a new entry at its place in key order otherwise. -/
def StrMap.assign (k v : Str) : StrMap → StrMap
  | [] => [(k, v)]
  | (k0, v0) :: rest =>
    if k = k0 then (k, v) :: rest
    else if k < k0 then (k, v) :: (k0, v0) :: rest
    else (k0, v0) :: StrMap.assign k v rest

/-- The value stored under key `k`, when there is one (`std::map::find`). -/
def StrMap.find (k : Str) : StrMap → Option Str
  | [] => none
  | (k0, v0) :: rest => if k = k0 then some v0 else StrMap.find k rest

/-- The keys of a map, in iteration order. -/
def StrMap.keys (m : StrMap) : List Str := m.map Prod.fst

/-- The Mongoose string `struct mg_str` converted to `std::string`. -/
def mgStrToString (mgStr : Str) : Str := mgStr

/-! ## The network connection and the response -/

/-- One call into the Mongoose engine on a connection. -/
inductive WireOp where
  /-- The call `mg_send_head(nc, status, length, extra_headers)`. -/
  | send_head (status : Int) (length : Nat) (extra_headers : Str)
  /-- The call `mg_send(nc, pData, length)`, with the `length` bytes at `pData`. -/
  | send (pData : Str)
  deriving DecidableEq, Repr

/-- The connection `struct mg_connection`: its flag word and the calls made on it. -/
structure mg_connection where
  flags : Nat
  wire : List WireOp
  deriving DecidableEq, Repr

/-- The flag `MG_F_SEND_AND_CLOSE` of mongoose.h: push the send buffer, then close. -/
def MG_F_SEND_AND_CLOSE : Nat := 1 <<< 10

/-- The class `WebServer::HTTPResponse`. -/
structure HTTPResponse where
  m_nc : mg_connection
  m_status : Int
  m_dataSent : Bool
  m_headers : StrMap
  m_rootPath : Str
  deriving DecidableEq, Repr

/-- The constructor `HTTPResponse::HTTPResponse(nc)`. -/
def HTTPResponse.new (nc : mg_connection) : HTTPResponse :=
  { m_nc := nc, m_status := 200, m_dataSent := false, m_headers := [], m_rootPath := [] }

/-- The method `HTTPResponse::addHeader`. -/
def HTTPResponse.addHeader (r : HTTPResponse) (name value : Str) : HTTPResponse :=
  { r with m_headers := r.m_headers.assign name value }

/-- The method `HTTPResponse::setHeaders`. -/
def HTTPResponse.setHeaders (r : HTTPResponse) (headers : StrMap) : HTTPResponse :=
  { r with m_headers := headers }

/-- The method `HTTPResponse::getRootPath`. -/
def HTTPResponse.getRootPath (r : HTTPResponse) : Str := r.m_rootPath

/-- The method `HTTPResponse::setRootPath`. -/
def HTTPResponse.setRootPath (r : HTTPResponse) (path : Str) : HTTPResponse :=
  { r with m_rootPath := path }

/-- The method `HTTPResponse::setStatus`. -/
def HTTPResponse.setStatus (r : HTTPResponse) (status : Int) : HTTPResponse :=
  { r with m_status := status }

/-- One pass of the body of the header loop of `sendData`: the new value of the local
`headers` after the map entry `iter` has been visited. -/
def sendData_headerStep (headers : Str) (iter : Str × Str) : Str :=
  if headers.length = 0 then
    iter.1 ++ ": ".toList ++ iter.2
  else
    "; ".toList ++ iter.1 ++ "=".toList ++ iter.2

/-- The local `headers` of `sendData` when its loop over `m_headers` has ended. -/
def sendData_headers (m_headers : StrMap) : Str :=
  m_headers.foldl sendData_headerStep []

/-- The method `HTTPResponse::sendData(uint8_t* pData, size_t length)`;
`sendData(std::string)` forwards to it with the bytes of the string. -/
def HTTPResponse.sendData (r : HTTPResponse) (pData : Str) : HTTPResponse :=
  if r.m_dataSent then
    r
  else
    { r with
      m_dataSent := true
      m_nc :=
        { flags := r.m_nc.flags ||| MG_F_SEND_AND_CLOSE
          wire := r.m_nc.wire ++
            [WireOp.send_head r.m_status pData.length (sendData_headers r.m_headers),
             WireOp.send pData] } }

/-! ## Requests, path handlers and the dispatcher -/

/-- The Mongoose message `struct http_message`, with the fields the server reads. -/
structure http_message where
  method : Str
  uri : Str
  query_string : Str
  body : Str
  deriving DecidableEq, Repr

/-- The class `WebServer::HTTPRequest`. -/
structure HTTPRequest where
  m_message : http_message
  deriving DecidableEq, Repr

/-- The method `HTTPRequest::getBody`. -/
def HTTPRequest.getBody (r : HTTPRequest) : Str := mgStrToString r.m_message.body

/-- The method `HTTPRequest::getMethod`. -/
def HTTPRequest.getMethod (r : HTTPRequest) : Str := mgStrToString r.m_message.method

/-- The method `HTTPRequest::getPath`. -/
def HTTPRequest.getPath (r : HTTPRequest) : Str := mgStrToString r.m_message.uri

/-- The library function `std::regex_search(path, std::regex(pattern))`, as
`search path pattern`. -/
abbrev RegexSearch := Str → Str → Bool

/-- The search of a pattern that has no regular-expression operator: it succeeds exactly
when the pattern text occurs in the path as a contiguous substring. -/
def literalSearch : RegexSearch := fun path pattern =>
  path.tails.any (fun t => pattern.isPrefixOf t)

/-- The library constructor `std::regex(pattern)`, as the test whether it accepts the
pattern text; on a pattern it does not accept, the constructor throws `std::regex_error`. -/
abbrev RegexAccepts := Str → Bool

/-- The characters that act as operators in a pattern of `std::regex`. -/
def regexOperators : Str :=
  ['^', '$', '\x5c', '.', '*', '+', '?', '(', ')', '[', ']', '\x7b', '\x7d', '|']

/-- The constructor on the patterns of the concrete checks: a pattern that has no
regular-expression operator is accepted, as `std::regex` accepts every such text; beyond
those the checks use it on the lone `(` only, an unmatched parenthesis, which `std::regex`
rejects. -/
def literalRegex : RegexAccepts := fun pattern =>
  pattern.all (fun c => !regexOperators.contains c)

/-- A request handler `void (*)(HTTPRequest*, HTTPResponse*)`: it acts on the response
through the pointer it is given. -/
abbrev RequestHandler := HTTPRequest → HTTPResponse → HTTPResponse

/-- The class `WebServer::PathHandler`; `m_pattern` is the text the regex was built from. -/
structure PathHandler where
  m_method : Str
  m_pattern : Str
  m_requestHandler : RequestHandler

/-- The constructor `PathHandler::PathHandler`: `none` when `std::regex(pathPattern)`
throws, in which case no `PathHandler` comes into being. -/
def PathHandler.new (accepts : RegexAccepts) (method pathPattern : Str)
    (webServerRequestHandler : RequestHandler) : Option PathHandler :=
  if accepts pathPattern then
    some { m_method := method, m_pattern := pathPattern,
           m_requestHandler := webServerRequestHandler }
  else
    none

/-- The method `PathHandler::match(path)`. -/
def PathHandler.matches (search : RegexSearch) (h : PathHandler) (path : Str) : Bool :=
  search path h.m_pattern

/-- The method `PathHandler::invoke`. -/
def PathHandler.invoke (h : PathHandler) (request : HTTPRequest) (response : HTTPResponse) :
    HTTPResponse :=
  h.m_requestHandler request response

end WebServer

/-- The class `WebServer`. -/
structure WebServer where
  m_rootPath : WebServer.Str
  m_pathHandlers : List WebServer.PathHandler

namespace WebServer

/-- The constructor `WebServer::WebServer`. -/
def new : WebServer := { m_rootPath := [], m_pathHandlers := [] }

/-- The method `WebServer::getRootPath`. -/
def getRootPath (ws : WebServer) : Str := ws.m_rootPath

/-- The method `WebServer::setRootPath`. -/
def setRootPath (ws : WebServer) (path : Str) : WebServer := { ws with m_rootPath := path }

/-- The method `WebServer::addPathHandler`: the argument of `push_back` is built first,
so when the constructor of `PathHandler` throws nothing is pushed and the exception leaves
`addPathHandler` (`none`); otherwise the server with the new entry is returned. -/
def addPathHandler (accepts : RegexAccepts) (ws : WebServer) (method pathExpr : Str)
    (handler : RequestHandler) : Option WebServer :=
  match PathHandler.new accepts method pathExpr handler with
  | some pathHandler => some { ws with m_pathHandlers := ws.m_pathHandlers ++ [pathHandler] }
  | none => none

/-- What `processRequest` does that is visible from outside, in order. -/
inductive Event where
  /-- The test `(*it).match(uri)` was evaluated on the entry at this index. -/
  | matchTested (index : Nat)
  /-- The call `(*it).invoke(...)` was made on the entry at this index. -/
  | invoked (index : Nat)
  /-- The call `fopen(filePath, "r")` was made. -/
  | fopen (filePath : Str)
  deriving DecidableEq, Repr

/-- The filesystem as `fopen` and `fread` see it: the content of the file at a path, when
the file can be opened. -/
abbrev FileSystem := Str → Option Str

/-- The result of `processRequest`: the events, and the response object at return. -/
structure Outcome where
  events : List Event
  httpResponse : HTTPResponse
  deriving DecidableEq, Repr

/-- The loop of `processRequest` over `m_pathHandlers`, from the entry at `index` on:
the events so far, and the response after the handler returned when an entry matched. -/
def processRequest_loop (search : RegexSearch) (uri : Str) (message : http_message)
    (httpResponse : HTTPResponse) :
    Nat → List PathHandler → List Event → List Event × Option HTTPResponse
  | _, [], events => (events, none)
  | index, it :: rest, events =>
    if it.matches search uri then
      (events ++ [Event.matchTested index, Event.invoked index],
        some (it.invoke { m_message := message } httpResponse))
    else
      processRequest_loop search uri message httpResponse (index + 1) rest
        (events ++ [Event.matchTested index])

/-- The method `WebServer::processRequest`. -/
def processRequest (search : RegexSearch) (fs : FileSystem) (ws : WebServer)
    (mgConnection : mg_connection) (message : http_message) : Outcome :=
  let uri := mgStrToString message.uri
  let httpResponse := (HTTPResponse.new mgConnection).setRootPath ws.getRootPath
  match processRequest_loop search uri message httpResponse 0 ws.m_pathHandlers [] with
  | (events, some handled) => { events := events, httpResponse := handled }
  | (events, none) =>
    let filePath := httpResponse.getRootPath ++ uri
    match fs filePath with
    | some pData =>
      { events := events ++ [Event.fopen filePath], httpResponse := httpResponse.sendData pData }
    | none =>
      { events := events ++ [Event.fopen filePath],
        httpResponse := (httpResponse.setStatus 404).sendData [] }

/-! ## Query strings and path segments -/

/-- The constant `STATE_NAME`. -/
def STATE_NAME : Int := 0

/-- The constant `STATE_VALUE`. -/
def STATE_VALUE : Int := 1

/-- The locals of `getQuery` that its loop updates. -/
structure QueryScan where
  state : Int
  name : Str
  value : Str
  queryMap : StrMap
  deriving DecidableEq, Repr

/-- The body of the `for` loop of `getQuery`, run on one character. -/
def getQuery_step (s : QueryScan) (currentChar : Char) : QueryScan :=
  if s.state = STATE_NAME then
    if currentChar ≠ '=' then
      { s with name := s.name ++ [currentChar] }
    else
      { s with state := STATE_VALUE, value := [] }
  else if s.state = STATE_VALUE then
    if currentChar ≠ '&' then
      { s with value := s.value ++ [currentChar] }
    else
      { s with queryMap := s.queryMap.assign s.name s.value, state := STATE_NAME, name := [] }
  else
    s

/-- The locals of `getQuery` before its loop. -/
def getQuery_init : QueryScan :=
  { state := STATE_NAME, name := [], value := [], queryMap := [] }

/-- The locals of `getQuery` after its loop over `queryString`. -/
def getQuery_scan (queryString : Str) : QueryScan :=
  queryString.foldl getQuery_step getQuery_init

/-- The part of `getQuery` after the loop: commit the pending pair in `STATE_VALUE`. -/
def getQuery_finish (s : QueryScan) : StrMap :=
  if s.state = STATE_VALUE then s.queryMap.assign s.name s.value else s.queryMap

/-- The method `HTTPRequest::getQuery`. -/
def HTTPRequest.getQuery (r : HTTPRequest) : StrMap :=
  let queryString := mgStrToString r.m_message.query_string
  getQuery_finish (getQuery_scan queryString)

/-- The characters `std::getline` extracts from a stream whose unread part is the
argument: the line up to the delimiter or the end, and what is left unread (the
delimiter is extracted and dropped). -/
def getline_extract (delim : Char) : Str → Str × Str
  | [] => ([], [])
  | c :: cs =>
    if c = delim then ([], cs)
    else ((c :: (getline_extract delim cs).1), (getline_extract delim cs).2)

/-- The call `std::getline(stream, str, delim)` on a stream whose unread part is the
argument: `none` when it fails (nothing at all could be extracted), else the line read
and the unread part left. -/
def getline (delim : Char) (stream : Str) : Option (Str × Str) :=
  match stream with
  | [] => none
  | c :: cs => some (getline_extract delim (c :: cs))

/-- The `while` loop of `pathSplit`: read lines from the stream into `ret` until
`getline` fails. -/
def pathSplit_loop (stream : Str) (ret : List Str) : List Str :=
  match h : getline '/' stream with
  | none => ret
  | some (pathPart, rest) => pathSplit_loop rest (ret ++ [pathPart])
termination_by stream.length
decreasing_by
  have extract_le : ∀ s : Str, (getline_extract '/' s).2.length ≤ s.length := by
    intro s
    induction s with
    | nil => simp [getline_extract]
    | cons c cs ih =>
      unfold getline_extract
      split
      · simp
      · simp only [List.length_cons]; omega
  cases stream with
  | nil => simp [getline] at h
  | cons c cs =>
    simp only [getline, Option.some.injEq] at h
    have hcs := extract_le cs
    unfold getline_extract at h
    split at h
    · simp only [Prod.mk.injEq] at h
      rw [← h.2]; simp
    · simp only [Prod.mk.injEq] at h
      rw [← h.2]; simp only [List.length_cons]; omega

/-- The method `HTTPRequest::pathSplit`. -/
def HTTPRequest.pathSplit (r : HTTPRequest) : List Str :=
  pathSplit_loop r.getPath []

end WebServer
namespace WebServer

/-! ## Sample data for the concrete checks -/

/-- A connection on which nothing has been sent and no flag is set. -/
def idleConnection : mg_connection := { flags := 0, wire := [] }

/-- A request message with the given method and path, no query string and no body. -/
def plainRequest (method uri : String) : http_message :=
  { method := method.toList, uri := uri.toList, query_string := [], body := [] }

/-- A request whose query string is the given text. -/
def queryRequest (query_string : String) : HTTPRequest :=
  { m_message := { method := "GET".toList, uri := "/".toList,
                   query_string := query_string.toList, body := [] } }

/-- A request whose path is the given text. -/
def pathRequest (uri : String) : HTTPRequest :=
  { m_message := plainRequest "GET" uri }

/-- A handler that sends the given text. -/
def sendText (text : String) : RequestHandler := fun _ response => response.sendData text.toList

/-- The registry entry with the given method, pattern and handler. -/
def entryOf (method pattern : String) (handler : RequestHandler) : PathHandler :=
  { m_method := method.toList, m_pattern := pattern.toList, m_requestHandler := handler }

/-- A server with the single entry ("GET", "/x"): a new server after
`addPathHandler("GET", "/x", ...)`. -/
def serverGetX : WebServer :=
  { m_rootPath := [], m_pathHandlers := [entryOf "GET" "/x" (sendText "hit")] }

/-- A server with the entries ("GET", "/a") then ("GET", "/a/b"): a new server after
`addPathHandler("GET", "/a", ...)` and `addPathHandler("GET", "/a/b", ...)`. -/
def serverAThenAB : WebServer :=
  { m_rootPath := [],
    m_pathHandlers :=
      [entryOf "GET" "/a" (sendText "first"), entryOf "GET" "/a/b" (sendText "second")] }

/-- A server with root path /www and no entry. -/
def serverWww : WebServer := setRootPath new "/www".toList

/-- A filesystem whose only file is /www/index.html, with content `hello`. -/
def fsIndexOnly : FileSystem := fun filePath =>
  if filePath = "/www/index.html".toList then some "hello".toList else none

/-- A filesystem without any file. -/
def fsEmpty : FileSystem := fun _ => none

end WebServer

namespace WebServer

/-! ## Sequences of calls on a response -/

/-- The invariant of `std::map`: the keys increase strictly in iteration order, so no key
occurs twice. -/
def StrMap.ordered (m : StrMap) : Prop := m.keys.Pairwise (fun a b => a < b)

/-- One call of a public method of `HTTPResponse` by the owner of the response. -/
inductive ResponseCall where
  /-- The call `setStatus(status)`. -/
  | setStatus (status : Int)
  /-- The call `addHeader(name, value)`. -/
  | addHeader (name value : Str)
  /-- The call `setHeaders(headers)`. -/
  | setHeaders (headers : StrMap)
  /-- The call `sendData(pData)`. -/
  | sendData (pData : Str)
  deriving DecidableEq, Repr

/-- Whether the call is a `sendData`. -/
def ResponseCall.isSend : ResponseCall → Bool
  | ResponseCall.sendData _ => true
  | _ => false

/-- The response after one call. -/
def HTTPResponse.call (r : HTTPResponse) : ResponseCall → HTTPResponse
  | ResponseCall.setStatus status => r.setStatus status
  | ResponseCall.addHeader name value => r.addHeader name value
  | ResponseCall.setHeaders headers => r.setHeaders headers
  | ResponseCall.sendData pData => r.sendData pData

/-- The response after a sequence of calls, made in order. -/
def HTTPResponse.calls (r : HTTPResponse) (ops : List ResponseCall) : HTTPResponse :=
  ops.foldl HTTPResponse.call r

/-- The entries committed by the scanner of `getQuery`, plus one for a pair pending in
`STATE_VALUE`. -/
def getQuery_pairsSeen (s : QueryScan) : Nat :=
  s.queryMap.length + (if s.state = STATE_VALUE then 1 else 0)

/-- A handler that leaves the response as it received it. -/
def idleHandler : RequestHandler := fun _ response => response

/-- A server with root path /www and the single entry ("GET", "/probe"), whose handler
leaves the response untouched: a new server after `setRootPath("/www")` and
`addPathHandler("GET", "/probe", ...)`. -/
def serverProbe : WebServer :=
  { m_rootPath := "/www".toList, m_pathHandlers := [entryOf "GET" "/probe" idleHandler] }

end WebServer

namespace WebServer

/-! ## Lemmas on the dispatcher loop -/

theorem processRequest_loop_none (search : RegexSearch) (uri : Str) (message : http_message)
    (httpResponse : HTTPResponse) (handlers : List PathHandler)
    (hnone : ∀ e ∈ handlers, e.matches search uri = false) (index : Nat) (events : List Event) :
    processRequest_loop search uri message httpResponse index handlers events =
      (events ++ (List.range handlers.length).map (fun j => Event.matchTested (index + j)),
        none) := by
  induction handlers generalizing index events with
  | nil => simp [processRequest_loop]
  | cons it rest ih =>
    have hit : it.matches search uri = false := hnone it (List.mem_cons_self _ _)
    have hrest : ∀ e ∈ rest, e.matches search uri = false :=
      fun e he => hnone e (List.mem_cons_of_mem _ he)
    simp only [processRequest_loop, hit, Bool.false_eq_true, if_false]
    rw [ih hrest, List.length_cons, List.range_succ_eq_map]
    simp [Function.comp_def, Nat.add_assoc, Nat.add_comm 1]

theorem processRequest_loop_first (search : RegexSearch) (uri : Str) (message : http_message)
    (httpResponse : HTTPResponse) (before : List PathHandler) (it : PathHandler)
    (after : List PathHandler)
    (hbefore : ∀ e ∈ before, e.matches search uri = false)
    (hit : it.matches search uri = true) (index : Nat) (events : List Event) :
    processRequest_loop search uri message httpResponse index (before ++ it :: after) events =
      (events ++ (List.range before.length).map (fun j => Event.matchTested (index + j)) ++
          [Event.matchTested (index + before.length), Event.invoked (index + before.length)],
        some (it.invoke { m_message := message } httpResponse)) := by
  induction before generalizing index events with
  | nil => simp [processRequest_loop, hit]
  | cons b rest ih =>
    have hb : b.matches search uri = false := hbefore b (List.mem_cons_self _ _)
    have hrest : ∀ e ∈ rest, e.matches search uri = false :=
      fun e he => hbefore e (List.mem_cons_of_mem _ he)
    rw [List.cons_append]
    simp only [processRequest_loop, hb, Bool.false_eq_true, if_false]
    rw [ih hrest, List.length_cons, List.range_succ_eq_map]
    simp [Function.comp_def, Nat.add_assoc, Nat.add_comm 1]

theorem exists_first_match (p : PathHandler → Bool) (handlers : List PathHandler)
    (h : ∃ e ∈ handlers, p e = true) :
    ∃ before it after, handlers = before ++ it :: after ∧
      (∀ e ∈ before, p e = false) ∧ p it = true := by
  induction handlers with
  | nil => simp at h
  | cons a rest ih =>
    by_cases ha : p a = true
    · exact ⟨[], a, rest, rfl, by simp, ha⟩
    · have hrest : ∃ e ∈ rest, p e = true := by
        obtain ⟨e, he, hpe⟩ := h
        rcases List.mem_cons.mp he with rfl | he
        · exact absurd hpe ha
        · exact ⟨e, he, hpe⟩
      obtain ⟨before, it, after, heq, hb, hit⟩ := ih hrest
      refine ⟨a :: before, it, after, by simp [heq], ?_, hit⟩
      intro e he
      rcases List.mem_cons.mp he with rfl | he
      · simpa using ha
      · exact hb e he

end WebServer

namespace WebServer

/-! ## Dispatch: the method, and the order of the entries -/

/-- C1 (the code at the failing input): with only the entry ("GET", "/x") registered, a
request with method POST for the path /x has the entry tested on the path alone and its
handler invoked; no file is looked up and what is sent is what the handler sent. -/
theorem processRequest_post_runs_get_handler :
    processRequest literalSearch fsEmpty serverGetX idleConnection (plainRequest "POST" "/x") =
      { events := [Event.matchTested 0, Event.invoked 0],
        httpResponse :=
          { m_nc := { flags := MG_F_SEND_AND_CLOSE,
                      wire := [WireOp.send_head 200 3 [], WireOp.send "hit".toList] },
            m_status := 200, m_dataSent := true, m_headers := [], m_rootPath := [] } } := by
  decide

/-- C2: when at least one registered entry passes its match test on the request path,
`processRequest` tests the entries in registration order up to the first one that passes,
invokes the handler of that entry and of no other, tests no entry after it, and returns
with the response as that handler left it. -/
theorem processRequest_first_match_wins (search : RegexSearch) (fs : FileSystem)
    (ws : WebServer) (mgConnection : mg_connection) (message : http_message)
    (hsome : ∃ e ∈ ws.m_pathHandlers, e.matches search message.uri = true) :
    ∃ (i : Nat) (it : PathHandler),
      ws.m_pathHandlers[i]? = some it ∧
      it.matches search message.uri = true ∧
      (∀ (j : Nat) (e : PathHandler), j < i → ws.m_pathHandlers[j]? = some e →
        e.matches search message.uri = false) ∧
      (processRequest search fs ws mgConnection message).events =
        (List.range (i + 1)).map Event.matchTested ++ [Event.invoked i] ∧
      (processRequest search fs ws mgConnection message).httpResponse =
        it.invoke { m_message := message }
          ((HTTPResponse.new mgConnection).setRootPath ws.getRootPath) := by
  obtain ⟨before, it, after, heq, hbefore, hit⟩ :=
    exists_first_match (fun e => e.matches search message.uri) ws.m_pathHandlers hsome
  refine ⟨before.length, it, ?_, hit, ?_, ?_, ?_⟩
  · rw [heq, List.getElem?_append_right (Nat.le_refl _)]; simp
  · intro j e hj hje
    rw [heq, List.getElem?_append_left hj] at hje
    exact hbefore e (List.getElem?_mem hje)
  · simp only [processRequest, mgStrToString, heq]
    rw [processRequest_loop_first search message.uri message _ before it after hbefore hit]
    simp [List.range_succ]
  · simp only [processRequest, mgStrToString, heq]
    rw [processRequest_loop_first search message.uri message _ before it after hbefore hit]

/-- C2, at the patterns "/a" then "/a/b" and a request for /a/b: the first entry is the
one invoked, and the second is neither tested nor invoked. -/
theorem processRequest_first_match_wins_witness :
    (∃ e ∈ serverAThenAB.m_pathHandlers,
        e.matches literalSearch (plainRequest "GET" "/a/b").uri = true) ∧
    (∃ (i : Nat) (it : PathHandler),
      serverAThenAB.m_pathHandlers[i]? = some it ∧
      it.matches literalSearch (plainRequest "GET" "/a/b").uri = true ∧
      (∀ (j : Nat) (e : PathHandler), j < i → serverAThenAB.m_pathHandlers[j]? = some e →
        e.matches literalSearch (plainRequest "GET" "/a/b").uri = false) ∧
      (processRequest literalSearch fsEmpty serverAThenAB idleConnection
          (plainRequest "GET" "/a/b")).events =
        (List.range (i + 1)).map Event.matchTested ++ [Event.invoked i] ∧
      (processRequest literalSearch fsEmpty serverAThenAB idleConnection
          (plainRequest "GET" "/a/b")).httpResponse =
        it.invoke { m_message := plainRequest "GET" "/a/b" }
          ((HTTPResponse.new idleConnection).setRootPath serverAThenAB.getRootPath)) ∧
    processRequest literalSearch fsEmpty serverAThenAB idleConnection
        (plainRequest "GET" "/a/b") =
      { events := [Event.matchTested 0, Event.invoked 0],
        httpResponse :=
          { m_nc := { flags := MG_F_SEND_AND_CLOSE,
                      wire := [WireOp.send_head 200 5 [], WireOp.send "first".toList] },
            m_status := 200, m_dataSent := true, m_headers := [], m_rootPath := [] } } :=
  ⟨⟨entryOf "GET" "/a" (sendText "first"),
      by simp [serverAThenAB], by decide⟩,
    processRequest_first_match_wins literalSearch fsEmpty serverAThenAB idleConnection
      (plainRequest "GET" "/a/b")
      ⟨entryOf "GET" "/a" (sendText "first"),
        by simp [serverAThenAB], by decide⟩,
    by decide⟩

end WebServer

namespace WebServer

/-! ## The response: one send -/

/-- C3: a second `sendData` on a response changes nothing at all (payload sent, status,
headers, sent flag and connection stay as the first call left them) and returns; and on
a response not yet sent the two calls together put on the connection the head and the
payload of the first call only. -/
theorem sendData_twice (r : HTTPResponse) (d1 d2 : Str) :
    (r.sendData d1).sendData d2 = r.sendData d1 ∧
    (r.sendData d1).m_dataSent = true ∧
    (r.m_dataSent = false →
      ((r.sendData d1).sendData d2).m_nc.wire =
        r.m_nc.wire ++
          [WireOp.send_head r.m_status d1.length (sendData_headers r.m_headers),
           WireOp.send d1] ∧
      ((r.sendData d1).sendData d2).m_status = r.m_status ∧
      ((r.sendData d1).sendData d2).m_headers = r.m_headers) := by
  have hsent : (r.sendData d1).m_dataSent = true := by
    unfold HTTPResponse.sendData
    split
    · assumption
    · rfl
  have hnoop : (r.sendData d1).sendData d2 = r.sendData d1 := by
    generalize r.sendData d1 = r1 at hsent
    simp [HTTPResponse.sendData, hsent]
  refine ⟨hnoop, hsent, ?_⟩
  intro hfresh
  rw [hnoop]
  simp [HTTPResponse.sendData, hfresh]

/-- C3, on a fresh response with status 200: payload `one` then payload `two`. -/
theorem sendData_twice_witness :
    (HTTPResponse.new idleConnection).m_dataSent = false ∧
    (((HTTPResponse.new idleConnection).sendData "one".toList).sendData "two".toList =
        (HTTPResponse.new idleConnection).sendData "one".toList ∧
      ((HTTPResponse.new idleConnection).sendData "one".toList).m_dataSent = true ∧
      ((HTTPResponse.new idleConnection).m_dataSent = false →
        (((HTTPResponse.new idleConnection).sendData "one".toList).sendData
            "two".toList).m_nc.wire =
          (HTTPResponse.new idleConnection).m_nc.wire ++
            [WireOp.send_head (HTTPResponse.new idleConnection).m_status "one".toList.length
               (sendData_headers (HTTPResponse.new idleConnection).m_headers),
             WireOp.send "one".toList] ∧
        (((HTTPResponse.new idleConnection).sendData "one".toList).sendData
            "two".toList).m_status = (HTTPResponse.new idleConnection).m_status ∧
        (((HTTPResponse.new idleConnection).sendData "one".toList).sendData
            "two".toList).m_headers = (HTTPResponse.new idleConnection).m_headers)) ∧
    (((HTTPResponse.new idleConnection).sendData "one".toList).sendData "two".toList).m_nc =
      { flags := MG_F_SEND_AND_CLOSE,
        wire := [WireOp.send_head 200 3 [], WireOp.send "one".toList] } :=
  ⟨rfl, sendData_twice (HTTPResponse.new idleConnection) "one".toList "two".toList, by decide⟩

/-! ## The static-file fallback -/

/-- C4: when no registered entry passes its match test, `processRequest` opens exactly
the file named by the root path followed by the request path; when that file has content
`b` it makes one send, status 200 and body `b`; when the file cannot be opened it makes
one send, status 404 and an empty body. -/
theorem processRequest_static_fallback (search : RegexSearch) (fs : FileSystem)
    (ws : WebServer) (mgConnection : mg_connection) (message : http_message)
    (hnone : ∀ e ∈ ws.m_pathHandlers, e.matches search message.uri = false) :
    (processRequest search fs ws mgConnection message).events =
      (List.range ws.m_pathHandlers.length).map Event.matchTested ++
        [Event.fopen (ws.m_rootPath ++ message.uri)] ∧
    (∀ b : Str, fs (ws.m_rootPath ++ message.uri) = some b →
      (processRequest search fs ws mgConnection message).httpResponse.m_nc.wire =
        mgConnection.wire ++ [WireOp.send_head 200 b.length [], WireOp.send b]) ∧
    (fs (ws.m_rootPath ++ message.uri) = none →
      (processRequest search fs ws mgConnection message).httpResponse.m_nc.wire =
        mgConnection.wire ++ [WireOp.send_head 404 0 [], WireOp.send []]) := by
  have hloop := processRequest_loop_none search message.uri message
    ((HTTPResponse.new mgConnection).setRootPath ws.getRootPath) ws.m_pathHandlers hnone 0 []
  refine ⟨?_, ?_, ?_⟩
  · simp only [processRequest, mgStrToString, hloop]
    cases fs (((HTTPResponse.new mgConnection).setRootPath ws.getRootPath).getRootPath ++
      message.uri) <;>
      simp [HTTPResponse.getRootPath, HTTPResponse.setRootPath, getRootPath]
  · intro b hb
    have hb2 : fs (((HTTPResponse.new mgConnection).setRootPath ws.getRootPath).getRootPath ++
        message.uri) = some b := hb
    simp only [processRequest, mgStrToString, hloop, hb2]
    simp [HTTPResponse.sendData, HTTPResponse.setRootPath, HTTPResponse.new, sendData_headers]
  · intro hb
    have hb2 : fs (((HTTPResponse.new mgConnection).setRootPath ws.getRootPath).getRootPath ++
        message.uri) = none := hb
    simp only [processRequest, mgStrToString, hloop, hb2]
    simp [HTTPResponse.sendData, HTTPResponse.setRootPath, HTTPResponse.setStatus,
      HTTPResponse.new, sendData_headers]

/-- C4, at root path /www and a request for /index.html: with the file present its
content is sent with status 200, and without it an empty body with status 404. -/
theorem processRequest_static_fallback_witness :
    (∀ e ∈ serverWww.m_pathHandlers,
      e.matches literalSearch (plainRequest "GET" "/index.html").uri = false) ∧
    ((processRequest literalSearch fsIndexOnly serverWww idleConnection
          (plainRequest "GET" "/index.html")).events =
        (List.range serverWww.m_pathHandlers.length).map Event.matchTested ++
          [Event.fopen (serverWww.m_rootPath ++ (plainRequest "GET" "/index.html").uri)] ∧
      (∀ b : Str,
        fsIndexOnly (serverWww.m_rootPath ++ (plainRequest "GET" "/index.html").uri) = some b →
        (processRequest literalSearch fsIndexOnly serverWww idleConnection
            (plainRequest "GET" "/index.html")).httpResponse.m_nc.wire =
          idleConnection.wire ++ [WireOp.send_head 200 b.length [], WireOp.send b]) ∧
      (fsIndexOnly (serverWww.m_rootPath ++ (plainRequest "GET" "/index.html").uri) = none →
        (processRequest literalSearch fsIndexOnly serverWww idleConnection
            (plainRequest "GET" "/index.html")).httpResponse.m_nc.wire =
          idleConnection.wire ++ [WireOp.send_head 404 0 [], WireOp.send []])) ∧
    processRequest literalSearch fsIndexOnly serverWww idleConnection
        (plainRequest "GET" "/index.html") =
      { events := [Event.fopen "/www/index.html".toList],
        httpResponse :=
          { m_nc := { flags := MG_F_SEND_AND_CLOSE,
                      wire := [WireOp.send_head 200 5 [], WireOp.send "hello".toList] },
            m_status := 200, m_dataSent := true, m_headers := [],
            m_rootPath := "/www".toList } } ∧
    processRequest literalSearch fsEmpty serverWww idleConnection
        (plainRequest "GET" "/index.html") =
      { events := [Event.fopen "/www/index.html".toList],
        httpResponse :=
          { m_nc := { flags := MG_F_SEND_AND_CLOSE,
                      wire := [WireOp.send_head 404 0 [], WireOp.send []] },
            m_status := 404, m_dataSent := true, m_headers := [],
            m_rootPath := "/www".toList } } :=
  ⟨by simp [serverWww, setRootPath, new],
    processRequest_static_fallback literalSearch fsIndexOnly serverWww idleConnection
      (plainRequest "GET" "/index.html") (by simp [serverWww, setRootPath, new]),
    by decide, by decide⟩

end WebServer

namespace WebServer

/-! ## Lemmas on maps -/

theorem StrMap.find_assign (k v x : Str) (m : StrMap) :
    StrMap.find x (StrMap.assign k v m) = if x = k then some v else StrMap.find x m := by
  induction m with
  | nil => simp [StrMap.assign, StrMap.find]
  | cons e rest ih =>
    obtain ⟨k0, v0⟩ := e
    unfold StrMap.assign
    by_cases h1 : k = k0
    · subst h1
      by_cases hx : x = k <;> simp [StrMap.find, hx]
    · simp only [h1, if_false]
      by_cases h2 : k < k0
      · simp only [h2, if_true, StrMap.find]
      · simp only [h2, if_false, StrMap.find, ih]
        by_cases h3 : x = k0
        · have h4 : ¬ k0 = k := fun h => h1 h.symm
          simp [h3, h4]
        · simp [h3]

theorem StrMap.mem_keys_assign (k v x : Str) (m : StrMap) :
    x ∈ StrMap.keys (StrMap.assign k v m) ↔ x = k ∨ x ∈ StrMap.keys m := by
  induction m with
  | nil => simp [StrMap.assign, StrMap.keys]
  | cons e rest ih =>
    obtain ⟨k0, v0⟩ := e
    unfold StrMap.assign
    by_cases h1 : k = k0
    · subst h1
      simp [StrMap.keys]
    · simp only [h1, if_false]
      by_cases h2 : k < k0
      · simp [h2, StrMap.keys]
      · simp only [h2, if_false]
        simp only [StrMap.keys, List.map_cons, List.mem_cons] at ih ⊢
        rw [ih]
        tauto

/-- The map after the entries of `pairs` have been assigned in order. -/
theorem StrMap.find_foldl_absent (pairs : List (Str × Str)) (m : StrMap) (x : Str)
    (hx : ∀ p ∈ pairs, p.1 ≠ x) :
    StrMap.find x (pairs.foldl (fun acc p => StrMap.assign p.1 p.2 acc) m) = StrMap.find x m := by
  induction pairs generalizing m with
  | nil => rfl
  | cons p rest ih =>
    have hp : p.1 ≠ x := hx p (List.mem_cons_self _ _)
    have hrest : ∀ q ∈ rest, q.1 ≠ x := fun q hq => hx q (List.mem_cons_of_mem _ hq)
    simp only [List.foldl_cons]
    rw [ih _ hrest, StrMap.find_assign]
    simp [Ne.symm hp]

theorem StrMap.mem_keys_foldl (pairs : List (Str × Str)) (m : StrMap) (x : Str) :
    x ∈ StrMap.keys (pairs.foldl (fun acc p => StrMap.assign p.1 p.2 acc) m) ↔
      x ∈ StrMap.keys m ∨ x ∈ pairs.map Prod.fst := by
  induction pairs generalizing m with
  | nil => simp
  | cons p rest ih =>
    simp only [List.foldl_cons, List.map_cons, List.mem_cons]
    rw [ih, StrMap.mem_keys_assign]
    tauto

/-! ## Lemmas on the query scanner -/

theorem getQuery_scan_name (s : QueryScan) (n : Str) (hstate : s.state = STATE_NAME)
    (hn : '=' ∉ n) :
    n.foldl getQuery_step s = { s with name := s.name ++ n } := by
  induction n generalizing s with
  | nil => simp
  | cons c cs ih =>
    have hc : c ≠ '=' := fun h => hn (h ▸ List.mem_cons_self _ _)
    have hcs : '=' ∉ cs := fun h => hn (List.mem_cons_of_mem _ h)
    simp only [List.foldl_cons]
    have hstep : getQuery_step s c = { s with name := s.name ++ [c] } := by
      simp [getQuery_step, hstate, hc]
    rw [hstep, ih { s with name := s.name ++ [c] } hstate hcs]
    simp

theorem getQuery_scan_value (s : QueryScan) (v : Str) (hstate : s.state = STATE_VALUE)
    (hv : '&' ∉ v) :
    v.foldl getQuery_step s = { s with value := s.value ++ v } := by
  induction v generalizing s with
  | nil => simp
  | cons c cs ih =>
    have hc : c ≠ '&' := fun h => hv (h ▸ List.mem_cons_self _ _)
    have hcs : '&' ∉ cs := fun h => hv (List.mem_cons_of_mem _ h)
    simp only [List.foldl_cons]
    have hstep : getQuery_step s c = { s with value := s.value ++ [c] } := by
      simp [getQuery_step, hstate, hc, STATE_NAME, STATE_VALUE]
    rw [hstep, ih { s with value := s.value ++ [c] } hstate hcs]
    simp

/-- Scanning `n=v` from the state of a name about to start leaves the scanner in
`STATE_VALUE` with `n` and `v` pending. -/
theorem getQuery_scan_pair (s : QueryScan) (n v : Str) (hstate : s.state = STATE_NAME)
    (hn : '=' ∉ n) (hv : '&' ∉ v) :
    (n ++ '=' :: v).foldl getQuery_step s =
      { state := STATE_VALUE, name := s.name ++ n, value := v, queryMap := s.queryMap } := by
  rw [List.foldl_append, getQuery_scan_name s n hstate hn, List.foldl_cons]
  have hstep : getQuery_step { s with name := s.name ++ n } '=' =
      { state := STATE_VALUE, name := s.name ++ n, value := [], queryMap := s.queryMap } := by
    simp [getQuery_step, hstate]
  rw [hstep, getQuery_scan_value _ v rfl hv]
  simp

theorem getQuery_step_commit (s : QueryScan) (hstate : s.state = STATE_VALUE) :
    getQuery_step s '&' =
      { state := STATE_NAME, name := [], value := s.value,
        queryMap := s.queryMap.assign s.name s.value } := by
  simp [getQuery_step, hstate, STATE_NAME, STATE_VALUE]

end WebServer

namespace WebServer

theorem getQuery_scan_state (q : Str) (s : QueryScan)
    (hs : s.state = STATE_NAME ∨ s.state = STATE_VALUE) :
    (q.foldl getQuery_step s).state = STATE_NAME ∨
      (q.foldl getQuery_step s).state = STATE_VALUE := by
  induction q generalizing s with
  | nil => simpa using hs
  | cons c cs ih =>
    simp only [List.foldl_cons]
    apply ih
    unfold getQuery_step
    rcases hs with h | h
    · by_cases hc : c = '=' <;> simp [h, hc]
    · by_cases hc : c = '&' <;> simp [h, hc, STATE_NAME, STATE_VALUE]

theorem getQuery_step_amp_state (s : QueryScan)
    (hs : s.state = STATE_NAME ∨ s.state = STATE_VALUE) :
    (getQuery_step s '&').state = STATE_NAME := by
  rcases hs with h | h
  · simp [getQuery_step, h]
  · simp [getQuery_step, h, STATE_NAME, STATE_VALUE]

theorem intercalate_cons_cons (sep x y : Str) (zs : List Str) :
    List.intercalate sep (x :: y :: zs) = x ++ sep ++ List.intercalate sep (y :: zs) := by
  simp [List.intercalate, List.intersperse]

/-- The scan of `n_1=v_1&...&n_k=v_k`, finished, is the map in which the pairs have been
assigned in order. -/
theorem getQuery_finish_pairs (pairs : List (Str × Str)) (s : QueryScan)
    (hstate : s.state = STATE_NAME) (hname : s.name = [])
    (hpairs : ∀ p ∈ pairs, '=' ∉ p.1 ∧ '&' ∉ p.2) :
    getQuery_finish
        ((List.intercalate ['&'] (pairs.map (fun p => p.1 ++ '=' :: p.2))).foldl
          getQuery_step s) =
      pairs.foldl (fun acc p => StrMap.assign p.1 p.2 acc) s.queryMap := by
  induction pairs generalizing s with
  | nil => simp [List.intercalate, getQuery_finish, hstate, STATE_NAME, STATE_VALUE]
  | cons p rest ih =>
    have hp := hpairs p (List.mem_cons_self _ _)
    have hrest : ∀ q ∈ rest, '=' ∉ q.1 ∧ '&' ∉ q.2 :=
      fun q hq => hpairs q (List.mem_cons_of_mem _ hq)
    cases rest with
    | nil =>
      have hone : List.intercalate ['&'] ([p].map (fun p => p.1 ++ '=' :: p.2)) =
          p.1 ++ '=' :: p.2 := by
        simp [List.intercalate, List.intersperse]
      rw [hone, getQuery_scan_pair s p.1 p.2 hstate hp.1 hp.2]
      simp [getQuery_finish, hname]
    | cons q rest2 =>
      have hsplit : List.intercalate ['&'] ((p :: q :: rest2).map (fun p => p.1 ++ '=' :: p.2)) =
          (p.1 ++ '=' :: p.2) ++ ['&'] ++
            List.intercalate ['&'] ((q :: rest2).map (fun p => p.1 ++ '=' :: p.2)) :=
        intercalate_cons_cons _ _ _ _
      rw [hsplit, List.foldl_append, List.foldl_append,
        getQuery_scan_pair s p.1 p.2 hstate hp.1 hp.2]
      simp only [List.foldl_cons, List.foldl_nil]
      rw [getQuery_step_commit _ rfl, ih _ rfl rfl hrest]
      simp [hname]

theorem getQuery_eq_foldl (r : HTTPRequest) (pairs : List (Str × Str))
    (hq : r.m_message.query_string =
      List.intercalate ['&'] (pairs.map (fun p => p.1 ++ '=' :: p.2)))
    (hpairs : ∀ p ∈ pairs, '=' ∉ p.1 ∧ '&' ∉ p.2) :
    r.getQuery = pairs.foldl (fun acc p => StrMap.assign p.1 p.2 acc) [] := by
  simp only [HTTPRequest.getQuery, mgStrToString, getQuery_scan, hq]
  exact getQuery_finish_pairs pairs getQuery_init rfl rfl hpairs

end WebServer

namespace WebServer

/-! ## Query strings -/

/-- C5: on the query string `n_1=v_1&...&n_k=v_k` of a non-empty list of pairs whose names
and values contain neither `=` nor `&`, the keys of the map `getQuery` returns are exactly
the names `n_1, ..., n_k`, and each name is mapped to the value of the last pair that
carries it. -/
theorem getQuery_pairs (r : HTTPRequest) (pairs : List (Str × Str))
    (_hne : pairs ≠ [])
    (hchars : ∀ p ∈ pairs, '=' ∉ p.1 ∧ '&' ∉ p.1 ∧ '=' ∉ p.2 ∧ '&' ∉ p.2)
    (hq : r.m_message.query_string =
      List.intercalate ['&'] (pairs.map (fun p => p.1 ++ '=' :: p.2))) :
    (∀ x : Str, x ∈ r.getQuery.keys ↔ x ∈ pairs.map Prod.fst) ∧
    (∀ (before : List (Str × Str)) (n v : Str) (after : List (Str × Str)),
      pairs = before ++ (n, v) :: after → (∀ p ∈ after, p.1 ≠ n) →
      r.getQuery.find n = some v) := by
  have hfold := getQuery_eq_foldl r pairs hq (fun p hp => ⟨(hchars p hp).1, (hchars p hp).2.2.2⟩)
  refine ⟨?_, ?_⟩
  · intro x
    rw [hfold, StrMap.mem_keys_foldl]
    simp [StrMap.keys]
  · intro before n v after hsplit hlast
    rw [hfold, hsplit, List.foldl_append, List.foldl_cons,
      StrMap.find_foldl_absent after _ n hlast, StrMap.find_assign]
    simp

/-- C5, at the query string `a=1&b=2&a=3`: the result is the map a -> 3, b -> 2. -/
theorem getQuery_pairs_witness :
    ([("a".toList, "1".toList), ("b".toList, "2".toList), ("a".toList, "3".toList)] ≠ []) ∧
    ((∀ x : Str, x ∈ (queryRequest "a=1&b=2&a=3").getQuery.keys ↔
        x ∈ [("a".toList, "1".toList), ("b".toList, "2".toList),
              ("a".toList, "3".toList)].map Prod.fst) ∧
      (∀ (before : List (Str × Str)) (n v : Str) (after : List (Str × Str)),
        [("a".toList, "1".toList), ("b".toList, "2".toList), ("a".toList, "3".toList)] =
          before ++ (n, v) :: after → (∀ p ∈ after, p.1 ≠ n) →
        (queryRequest "a=1&b=2&a=3").getQuery.find n = some v)) ∧
    (queryRequest "a=1&b=2&a=3").getQuery =
      [("a".toList, "3".toList), ("b".toList, "2".toList)] :=
  ⟨by decide,
    getQuery_pairs (queryRequest "a=1&b=2&a=3")
      [("a".toList, "1".toList), ("b".toList, "2".toList), ("a".toList, "3".toList)]
      (by decide) (by decide) (by decide),
    by decide⟩

/-- C6: when the query string has an `=` after its last `&` (or has an `=` and no `&`),
`getQuery` returns the same map as on the query string with a closing `&` added, and in
that map the name pending at the end of the input is a key, mapped to the pending value. -/
theorem getQuery_flush (r : HTTPRequest) (upToLastAmp tail : Str)
    (hq : r.m_message.query_string = upToLastAmp ++ tail)
    (hlast : upToLastAmp = [] ∨ upToLastAmp.getLast? = some '&')
    (hamp : '&' ∉ tail) (heq : '=' ∈ tail) :
    r.getQuery =
      HTTPRequest.getQuery
        { m_message :=
            { r.m_message with query_string := r.m_message.query_string ++ ['&'] } } ∧
    (getQuery_scan r.m_message.query_string).state = STATE_VALUE ∧
    r.getQuery.find (getQuery_scan r.m_message.query_string).name =
      some (getQuery_scan r.m_message.query_string).value := by
  have hpre : (upToLastAmp.foldl getQuery_step getQuery_init).state = STATE_NAME := by
    rcases hlast with h | h
    · subst h; rfl
    · obtain ⟨ys, hys⟩ := List.getLast?_eq_some_iff.mp h
      rw [hys, List.foldl_append]
      exact getQuery_step_amp_state _ (getQuery_scan_state ys getQuery_init (Or.inl rfl))
  obtain ⟨n, v, htail, hn⟩ := List.eq_append_cons_of_mem heq
  have hv : '&' ∉ v := fun h => hamp (by rw [htail]; simp [h])
  have hscan : getQuery_scan r.m_message.query_string =
      { state := STATE_VALUE,
        name := (upToLastAmp.foldl getQuery_step getQuery_init).name ++ n,
        value := v,
        queryMap := (upToLastAmp.foldl getQuery_step getQuery_init).queryMap } := by
    rw [getQuery_scan, hq, htail, List.foldl_append, getQuery_scan_pair _ n v hpre hn hv]
  have hstate : (getQuery_scan r.m_message.query_string).state = STATE_VALUE := by
    rw [hscan]
  refine ⟨?_, hstate, ?_⟩
  · have hclosed : getQuery_scan (r.m_message.query_string ++ ['&']) =
        getQuery_step (getQuery_scan r.m_message.query_string) '&' := by
      simp [getQuery_scan, List.foldl_append]
    simp only [HTTPRequest.getQuery, mgStrToString]
    rw [hclosed, getQuery_step_commit _ hstate]
    simp [getQuery_finish, hstate, STATE_NAME, STATE_VALUE]
  · simp only [HTTPRequest.getQuery, mgStrToString, getQuery_finish, hstate, if_true]
    rw [StrMap.find_assign]
    simp

/-- C6, at the query string `x=9`: the result is the map x -> 9. -/
theorem getQuery_flush_witness :
    ((queryRequest "x=9").m_message.query_string = [] ++ "x=9".toList ∧
      (([] : Str) = [] ∨ ([] : Str).getLast? = some '&') ∧
      '&' ∉ "x=9".toList ∧ '=' ∈ "x=9".toList) ∧
    ((queryRequest "x=9").getQuery = (queryRequest "x=9&").getQuery ∧
      (getQuery_scan "x=9".toList).state = STATE_VALUE ∧
      (queryRequest "x=9").getQuery.find (getQuery_scan "x=9".toList).name =
        some (getQuery_scan "x=9".toList).value) ∧
    (queryRequest "x=9").getQuery = [("x".toList, "9".toList)] ∧
    (getQuery_scan "x=9".toList).name = "x".toList ∧
    (getQuery_scan "x=9".toList).value = "9".toList :=
  ⟨⟨rfl, Or.inl rfl, by decide, by decide⟩,
    getQuery_flush (queryRequest "x=9") [] "x=9".toList rfl (Or.inl rfl) (by decide)
      (by decide),
    by decide, by decide, by decide⟩

/-- C7: on a query string without any `=` (the empty string and a bare name included)
`getQuery` returns the empty map. -/
theorem getQuery_no_equals (r : HTTPRequest) (hq : '=' ∉ r.m_message.query_string) :
    r.getQuery = [] := by
  simp only [HTTPRequest.getQuery, mgStrToString, getQuery_scan]
  rw [getQuery_scan_name getQuery_init _ rfl hq]
  simp [getQuery_finish, getQuery_init, STATE_NAME, STATE_VALUE]

/-- C7, at the empty query string and at the bare name `flag`. -/
theorem getQuery_no_equals_witness :
    ('=' ∉ (queryRequest "flag").m_message.query_string ∧
      (queryRequest "flag").getQuery = []) ∧
    ('=' ∉ (queryRequest "").m_message.query_string ∧ (queryRequest "").getQuery = []) :=
  ⟨⟨by decide, getQuery_no_equals (queryRequest "flag") (by decide)⟩,
    ⟨by decide, getQuery_no_equals (queryRequest "") (by decide)⟩⟩

end WebServer

namespace WebServer

/-! ## Path segments -/

theorem pathSplit_loop_nil (ret : List Str) : pathSplit_loop [] ret = ret := by
  rw [pathSplit_loop]
  simp [getline]

theorem pathSplit_loop_cons (c : Char) (cs : Str) (ret : List Str) :
    pathSplit_loop (c :: cs) ret =
      pathSplit_loop (getline_extract '/' (c :: cs)).2
        (ret ++ [(getline_extract '/' (c :: cs)).1]) := by
  rw [pathSplit_loop]
  simp [getline]

theorem pathSplit_loop_slash (rest : Str) (ret : List Str) :
    pathSplit_loop ('/' :: rest) ret = pathSplit_loop rest (ret ++ [[]]) := by
  rw [pathSplit_loop_cons]
  simp [getline_extract]

theorem getline_extract_le (delim : Char) (s : Str) :
    (getline_extract delim s).2.length ≤ s.length := by
  induction s with
  | nil => simp [getline_extract]
  | cons c cs ih =>
    unfold getline_extract
    split
    · simp
    · simp only [List.length_cons]; omega

theorem getline_extract_lt (delim c : Char) (cs : Str) :
    (getline_extract delim (c :: cs)).2.length < (c :: cs).length := by
  have hcs := getline_extract_le delim cs
  unfold getline_extract
  split
  · simp
  · simp only [List.length_cons]; omega

theorem pathSplit_loop_append_aux (n : Nat) :
    ∀ (stream : Str), stream.length ≤ n → ∀ ret : List Str,
      pathSplit_loop stream ret = ret ++ pathSplit_loop stream [] := by
  induction n with
  | zero =>
    intro stream hlen ret
    have hnil : stream = [] := List.length_eq_zero.mp (Nat.le_zero.mp hlen)
    subst hnil
    simp [pathSplit_loop_nil]
  | succ n ih =>
    intro stream hlen ret
    cases stream with
    | nil => simp [pathSplit_loop_nil]
    | cons c cs =>
      have hlt := getline_extract_lt '/' c cs
      have hle : (getline_extract '/' (c :: cs)).2.length ≤ n := by omega
      rw [pathSplit_loop_cons c cs ret, pathSplit_loop_cons c cs [],
        ih _ hle (ret ++ _), ih _ hle ([] ++ _)]
      simp

/-- The segments read are appended to the segments already in `ret`. -/
theorem pathSplit_loop_append (stream : Str) (ret : List Str) :
    pathSplit_loop stream ret = ret ++ pathSplit_loop stream [] :=
  pathSplit_loop_append_aux stream.length stream (Nat.le_refl _) ret

/-- C8: for a path that begins with `/` the result of `pathSplit` is non-empty and its
first segment is the empty string; and `pathSplit` of `/x/y/z` is the four segments
empty, `x`, `y`, `z`. -/
theorem pathSplit_leading_slash (r : HTTPRequest) (hslash : r.getPath.head? = some '/') :
    (r.pathSplit ≠ [] ∧ r.pathSplit.head? = some []) ∧
    (pathRequest "/x/y/z").pathSplit = ["".toList, "x".toList, "y".toList, "z".toList] := by
  refine ⟨?_, ?_⟩
  · unfold HTTPRequest.pathSplit
    cases hpath : r.getPath with
    | nil => rw [hpath] at hslash; simp at hslash
    | cons c rest =>
      rw [hpath] at hslash
      simp only [List.head?_cons, Option.some.injEq] at hslash
      subst hslash
      rw [pathSplit_loop_slash, pathSplit_loop_append]
      simp
  · simp [HTTPRequest.pathSplit, HTTPRequest.getPath, mgStrToString, pathRequest, plainRequest,
      pathSplit_loop_cons, pathSplit_loop_nil, getline_extract]

/-- C8, at the path `/x/y/z`. -/
theorem pathSplit_leading_slash_witness :
    (pathRequest "/x/y/z").getPath.head? = some '/' ∧
    (((pathRequest "/x/y/z").pathSplit ≠ [] ∧
        (pathRequest "/x/y/z").pathSplit.head? = some []) ∧
      (pathRequest "/x/y/z").pathSplit =
        ["".toList, "x".toList, "y".toList, "z".toList]) :=
  ⟨rfl, pathSplit_leading_slash (pathRequest "/x/y/z") rfl⟩

/-- C9 (the claim as stated fails): `pathSplit` of the empty path is not the one-element
sequence holding the empty segment. -/
theorem pathSplit_empty_not_singleton : (pathRequest "").pathSplit ≠ [[]] := by
  simp [HTTPRequest.pathSplit, HTTPRequest.getPath, mgStrToString, pathRequest, plainRequest,
    pathSplit_loop_nil]

/-- C9 (amended): `pathSplit` of the empty path returns the empty sequence, whatever the
other fields of the request are. -/
theorem pathSplit_empty (method query_string body : Str) :
    HTTPRequest.pathSplit
        { m_message :=
            { method := method, uri := [], query_string := query_string, body := body } } =
      [] := by
  simp [HTTPRequest.pathSplit, HTTPRequest.getPath, mgStrToString, pathSplit_loop_nil]

/-! ## The header text -/

/-- C10 (the code at the failing input): with the two headers A: 1 and B: 2 added, the
header text `sendData` passes to `mg_send_head` is `; B=2`; the name A occurs nowhere in
it. -/
theorem sendData_two_headers :
    ((((HTTPResponse.new idleConnection).addHeader "A".toList "1".toList).addHeader
        "B".toList "2".toList).sendData "x".toList).m_nc.wire =
      [WireOp.send_head 200 1 "; B=2".toList, WireOp.send "x".toList] ∧
    sendData_headers [("A".toList, "1".toList), ("B".toList, "2".toList)] = "; B=2".toList ∧
    literalSearch (sendData_headers [("A".toList, "1".toList), ("B".toList, "2".toList)])
      "A".toList = false := by
  decide

end WebServer

namespace WebServer

/-! ## Registration -/

/-- The sample servers are what the registrations named in their descriptions return. -/
theorem sampleServers_registered :
    addPathHandler literalRegex new "GET".toList "/x".toList (sendText "hit") =
      some serverGetX ∧
    (addPathHandler literalRegex new "GET".toList "/a".toList (sendText "first")).bind
        (fun ws => addPathHandler literalRegex ws "GET".toList "/a/b".toList
          (sendText "second")) =
      some serverAThenAB ∧
    addPathHandler literalRegex (setRootPath new "/www".toList) "GET".toList
        "/probe".toList idleHandler =
      some serverProbe :=
  ⟨rfl, rfl, rfl⟩

/-- C11 (the claim as stated fails): with the lone `(` as pattern the constructor of
`std::regex` throws, `addPathHandler` does not return, and there is no list of entries
with the new entry appended. -/
theorem addPathHandler_rejected_pattern :
    literalRegex "(".toList = false ∧
    addPathHandler literalRegex serverGetX "GET".toList "(".toList (sendText "never") = none ∧
    ¬ ∃ after : WebServer,
      addPathHandler literalRegex serverGetX "GET".toList "(".toList (sendText "never") =
        some after ∧
      after.m_pathHandlers =
        serverGetX.m_pathHandlers ++ [entryOf "GET" "(" (sendText "never")] := by
  have hthrown :
      addPathHandler literalRegex serverGetX "GET".toList "(".toList (sendText "never") =
        none := rfl
  refine ⟨by decide, hthrown, ?_⟩
  rintro ⟨after, hafter, -⟩
  rw [hthrown] at hafter
  exact Option.noConfusion hafter

/-- C11 (amended): when `std::regex` accepts the pattern, `addPathHandler` returns and
the list of entries is the list before with the new entry appended at the end: one entry
more, the earlier entries at their positions, nothing reordered or merged, also when an
equal method and pattern are registered already; the root path is untouched.  When
`std::regex` does not accept the pattern, the call ends in the exception. -/
theorem addPathHandler_appends (accepts : RegexAccepts) (ws : WebServer)
    (method pathExpr : Str) (handler : RequestHandler) :
    (accepts pathExpr = true →
      ∃ once twice : WebServer,
        addPathHandler accepts ws method pathExpr handler = some once ∧
        once.m_pathHandlers =
          ws.m_pathHandlers ++
            [{ m_method := method, m_pattern := pathExpr, m_requestHandler := handler }] ∧
        once.m_pathHandlers.length = ws.m_pathHandlers.length + 1 ∧
        once.m_pathHandlers.take ws.m_pathHandlers.length = ws.m_pathHandlers ∧
        (∀ i : Nat, i < ws.m_pathHandlers.length →
          once.m_pathHandlers[i]? = ws.m_pathHandlers[i]?) ∧
        once.m_pathHandlers[ws.m_pathHandlers.length]? =
          some { m_method := method, m_pattern := pathExpr, m_requestHandler := handler } ∧
        once.m_rootPath = ws.m_rootPath ∧
        addPathHandler accepts once method pathExpr handler = some twice ∧
        twice.m_pathHandlers =
          ws.m_pathHandlers ++
            [{ m_method := method, m_pattern := pathExpr, m_requestHandler := handler },
             { m_method := method, m_pattern := pathExpr, m_requestHandler := handler }]) ∧
    (accepts pathExpr = false →
      addPathHandler accepts ws method pathExpr handler = none) := by
  refine ⟨?_, ?_⟩
  · intro haccepts
    refine ⟨{ ws with m_pathHandlers := ws.m_pathHandlers ++
          [{ m_method := method, m_pattern := pathExpr, m_requestHandler := handler }] },
      { ws with m_pathHandlers := (ws.m_pathHandlers ++
          [{ m_method := method, m_pattern := pathExpr, m_requestHandler := handler }]) ++
          [{ m_method := method, m_pattern := pathExpr, m_requestHandler := handler }] },
      ?_, rfl, by simp, by simp, ?_, ?_, rfl, ?_, by simp⟩
    · simp only [addPathHandler, PathHandler.new, haccepts, if_true]
    · intro i hi
      exact List.getElem?_append_left hi
    · show (ws.m_pathHandlers ++ _)[ws.m_pathHandlers.length]? = _
      rw [List.getElem?_append_right (Nat.le_refl _)]
      simp
    · simp only [addPathHandler, PathHandler.new, haccepts, if_true]
  · intro hrejected
    simp [addPathHandler, PathHandler.new, hrejected]

/-- C11 (amended), at the server with the entry ("GET", "/x"): that server is what the
registration on a new server returns; a second registration of the same method and
pattern keeps both entries, the earlier one first; the pattern `(` registers nothing. -/
theorem addPathHandler_appends_witness :
    (literalRegex "/x".toList = true ∧ literalRegex "(".toList = false) ∧
    addPathHandler literalRegex new "GET".toList "/x".toList (sendText "hit") =
      some serverGetX ∧
    (∃ once twice : WebServer,
      addPathHandler literalRegex serverGetX "GET".toList "/x".toList (sendText "again") =
        some once ∧
      once.m_pathHandlers =
        serverGetX.m_pathHandlers ++
          [{ m_method := "GET".toList, m_pattern := "/x".toList,
             m_requestHandler := sendText "again" }] ∧
      once.m_pathHandlers.length = serverGetX.m_pathHandlers.length + 1 ∧
      once.m_pathHandlers.take serverGetX.m_pathHandlers.length = serverGetX.m_pathHandlers ∧
      (∀ i : Nat, i < serverGetX.m_pathHandlers.length →
        once.m_pathHandlers[i]? = serverGetX.m_pathHandlers[i]?) ∧
      once.m_pathHandlers[serverGetX.m_pathHandlers.length]? =
        some { m_method := "GET".toList, m_pattern := "/x".toList,
               m_requestHandler := sendText "again" } ∧
      once.m_rootPath = serverGetX.m_rootPath ∧
      addPathHandler literalRegex once "GET".toList "/x".toList (sendText "again") =
        some twice ∧
      twice.m_pathHandlers =
        serverGetX.m_pathHandlers ++
          [{ m_method := "GET".toList, m_pattern := "/x".toList,
             m_requestHandler := sendText "again" },
           { m_method := "GET".toList, m_pattern := "/x".toList,
             m_requestHandler := sendText "again" }]) ∧
    addPathHandler literalRegex serverGetX "GET".toList "(".toList (sendText "again") = none :=
  ⟨⟨by decide, by decide⟩, rfl,
    (addPathHandler_appends literalRegex serverGetX "GET".toList "/x".toList
      (sendText "again")).1 (by decide),
    (addPathHandler_appends literalRegex serverGetX "GET".toList "(".toList
      (sendText "again")).2 (by decide)⟩

/-! ## The first send -/

theorem or_and_self_flag (flags mark : Nat) : (flags ||| mark) &&& mark = mark := by
  apply Nat.eq_of_testBit_eq
  intro i
  simp only [Nat.testBit_and, Nat.testBit_or]
  cases flags.testBit i <;> cases mark.testBit i <;> rfl

/-- C12: the first `sendData` on a response, with any payload, sets the sent flag, puts
the mark `MG_F_SEND_AND_CLOSE` on the connection, and hands the engine one head with the
status the response holds at that moment and the length of the payload, followed by
exactly the bytes given. -/
theorem sendData_first (r : HTTPResponse) (pData : Str) (hfresh : r.m_dataSent = false) :
    (r.sendData pData).m_dataSent = true ∧
    (r.sendData pData).m_nc.flags &&& MG_F_SEND_AND_CLOSE = MG_F_SEND_AND_CLOSE ∧
    (r.sendData pData).m_nc.wire =
      r.m_nc.wire ++
        [WireOp.send_head r.m_status pData.length (sendData_headers r.m_headers),
         WireOp.send pData] ∧
    (r.sendData pData).m_status = r.m_status := by
  simp [HTTPResponse.sendData, hfresh, or_and_self_flag]

/-- C12, on a fresh response given status 201 and the payload `ok`. -/
theorem sendData_first_witness :
    ((HTTPResponse.new idleConnection).setStatus 201).m_dataSent = false ∧
    ((((HTTPResponse.new idleConnection).setStatus 201).sendData "ok".toList).m_dataSent = true ∧
      (((HTTPResponse.new idleConnection).setStatus 201).sendData "ok".toList).m_nc.flags &&&
          MG_F_SEND_AND_CLOSE = MG_F_SEND_AND_CLOSE ∧
      (((HTTPResponse.new idleConnection).setStatus 201).sendData "ok".toList).m_nc.wire =
        ((HTTPResponse.new idleConnection).setStatus 201).m_nc.wire ++
          [WireOp.send_head ((HTTPResponse.new idleConnection).setStatus 201).m_status
             "ok".toList.length
             (sendData_headers ((HTTPResponse.new idleConnection).setStatus 201).m_headers),
           WireOp.send "ok".toList] ∧
      (((HTTPResponse.new idleConnection).setStatus 201).sendData "ok".toList).m_status =
        ((HTTPResponse.new idleConnection).setStatus 201).m_status) ∧
    (((HTTPResponse.new idleConnection).setStatus 201).sendData "ok".toList).m_nc =
      { flags := 1024, wire := [WireOp.send_head 201 2 [], WireOp.send "ok".toList] } :=
  ⟨rfl, sendData_first ((HTTPResponse.new idleConnection).setStatus 201) "ok".toList rfl,
    by decide⟩

end WebServer

namespace WebServer

/-! ## The response a handler receives, and what follows its return -/

/-- The whole outcome of `processRequest` when the first entry that passes its match
test is `it`, with the entries `before` ahead of it. -/
theorem processRequest_of_first_match (search : RegexSearch) (fs : FileSystem)
    (ws : WebServer) (mgConnection : mg_connection) (message : http_message)
    (before : List PathHandler) (it : PathHandler) (after : List PathHandler)
    (hsplit : ws.m_pathHandlers = before ++ it :: after)
    (hbefore : ∀ e ∈ before, e.matches search message.uri = false)
    (hit : it.matches search message.uri = true) :
    processRequest search fs ws mgConnection message =
      { events := (List.range before.length).map Event.matchTested ++
          [Event.matchTested before.length, Event.invoked before.length],
        httpResponse := it.invoke { m_message := message }
          { m_nc := mgConnection, m_status := 200, m_dataSent := false, m_headers := [],
            m_rootPath := ws.m_rootPath } } := by
  simp only [processRequest, mgStrToString, hsplit]
  rw [processRequest_loop_first search message.uri message _ before it after hbefore hit]
  simp [HTTPResponse.new, HTTPResponse.setRootPath, getRootPath]

/-- C13: the response `processRequest` builds for a request has status 200, the sent flag
off, no header, the connection of the request and the root path of the server; and when
an entry matches, the handler of the first such entry is called with exactly that
response. -/
theorem processRequest_response_at_handler (search : RegexSearch) (fs : FileSystem)
    (ws : WebServer) (mgConnection : mg_connection) (message : http_message)
    (hsome : ∃ e ∈ ws.m_pathHandlers, e.matches search message.uri = true) :
    (HTTPResponse.new mgConnection).setRootPath ws.getRootPath =
      { m_nc := mgConnection, m_status := 200, m_dataSent := false, m_headers := [],
        m_rootPath := ws.m_rootPath } ∧
    ∃ it ∈ ws.m_pathHandlers,
      it.matches search message.uri = true ∧
      (processRequest search fs ws mgConnection message).httpResponse =
        it.m_requestHandler { m_message := message }
          { m_nc := mgConnection, m_status := 200, m_dataSent := false, m_headers := [],
            m_rootPath := ws.m_rootPath } := by
  refine ⟨rfl, ?_⟩
  obtain ⟨before, it, after, hsplit, hbefore, hit⟩ :=
    exists_first_match (fun e => e.matches search message.uri) ws.m_pathHandlers hsome
  refine ⟨it, by rw [hsplit]; simp, hit, ?_⟩
  rw [processRequest_of_first_match search fs ws mgConnection message before it after hsplit
    hbefore hit]
  rfl

/-- C13, at a server with root path /www whose only handler returns the response it was
given: the response at return is the one the handler received. -/
theorem processRequest_response_at_handler_witness :
    (∃ e ∈ serverProbe.m_pathHandlers,
      e.matches literalSearch (plainRequest "GET" "/probe").uri = true) ∧
    ((HTTPResponse.new idleConnection).setRootPath serverProbe.getRootPath =
        { m_nc := idleConnection, m_status := 200, m_dataSent := false, m_headers := [],
          m_rootPath := serverProbe.m_rootPath } ∧
      ∃ it ∈ serverProbe.m_pathHandlers,
        it.matches literalSearch (plainRequest "GET" "/probe").uri = true ∧
        (processRequest literalSearch fsEmpty serverProbe idleConnection
            (plainRequest "GET" "/probe")).httpResponse =
          it.m_requestHandler { m_message := plainRequest "GET" "/probe" }
            { m_nc := idleConnection, m_status := 200, m_dataSent := false, m_headers := [],
              m_rootPath := serverProbe.m_rootPath }) ∧
    (processRequest literalSearch fsEmpty serverProbe idleConnection
        (plainRequest "GET" "/probe")).httpResponse =
      { m_nc := idleConnection, m_status := 200, m_dataSent := false, m_headers := [],
        m_rootPath := "/www".toList } :=
  ⟨⟨entryOf "GET" "/probe" idleHandler,
      by simp [serverProbe], by decide⟩,
    processRequest_response_at_handler literalSearch fsEmpty serverProbe idleConnection
      (plainRequest "GET" "/probe")
      ⟨entryOf "GET" "/probe" idleHandler,
        by simp [serverProbe], by decide⟩,
    by decide⟩

/-- C16: when an entry matches, `processRequest` does nothing of its own once the handler
has returned: no file is opened and the outcome is the same on every filesystem, and the
response at return, with the connection and all that was sent on it, is the response as
the handler left it; a handler that leaves the connection alone leaves nothing sent. -/
theorem processRequest_handler_only (search : RegexSearch) (fs : FileSystem)
    (ws : WebServer) (mgConnection : mg_connection) (message : http_message)
    (hsome : ∃ e ∈ ws.m_pathHandlers, e.matches search message.uri = true) :
    (∀ filePath : Str,
      Event.fopen filePath ∉ (processRequest search fs ws mgConnection message).events) ∧
    (∀ other : FileSystem,
      processRequest search other ws mgConnection message =
        processRequest search fs ws mgConnection message) ∧
    ∃ it ∈ ws.m_pathHandlers,
      it.matches search message.uri = true ∧
      (processRequest search fs ws mgConnection message).httpResponse =
        it.invoke { m_message := message }
          ((HTTPResponse.new mgConnection).setRootPath ws.getRootPath) ∧
      ((it.invoke { m_message := message }
          ((HTTPResponse.new mgConnection).setRootPath ws.getRootPath)).m_nc = mgConnection →
        (processRequest search fs ws mgConnection message).httpResponse.m_nc =
          mgConnection) := by
  obtain ⟨before, it, after, hsplit, hbefore, hit⟩ :=
    exists_first_match (fun e => e.matches search message.uri) ws.m_pathHandlers hsome
  have hout := fun other : FileSystem =>
    processRequest_of_first_match search other ws mgConnection message before it after hsplit
      hbefore hit
  refine ⟨?_, ?_, it, by rw [hsplit]; simp, hit, ?_, ?_⟩
  · intro filePath
    rw [hout fs]
    simp
  · intro other
    rw [hout other, hout fs]
  · rw [hout fs]
    rfl
  · intro hidle
    rw [hout fs]
    exact hidle

/-- C16, at a handler that never sends: nothing is sent, the connection is not marked,
and no file is opened although /www/probe is asked for. -/
theorem processRequest_handler_only_witness :
    (∃ e ∈ serverProbe.m_pathHandlers,
      e.matches literalSearch (plainRequest "GET" "/probe").uri = true) ∧
    ((∀ filePath : Str,
        Event.fopen filePath ∉
          (processRequest literalSearch fsIndexOnly serverProbe idleConnection
            (plainRequest "GET" "/probe")).events) ∧
      (∀ other : FileSystem,
        processRequest literalSearch other serverProbe idleConnection
            (plainRequest "GET" "/probe") =
          processRequest literalSearch fsIndexOnly serverProbe idleConnection
            (plainRequest "GET" "/probe")) ∧
      ∃ it ∈ serverProbe.m_pathHandlers,
        it.matches literalSearch (plainRequest "GET" "/probe").uri = true ∧
        (processRequest literalSearch fsIndexOnly serverProbe idleConnection
            (plainRequest "GET" "/probe")).httpResponse =
          it.invoke { m_message := plainRequest "GET" "/probe" }
            ((HTTPResponse.new idleConnection).setRootPath serverProbe.getRootPath) ∧
        ((it.invoke { m_message := plainRequest "GET" "/probe" }
            ((HTTPResponse.new idleConnection).setRootPath serverProbe.getRootPath)).m_nc =
            idleConnection →
          (processRequest literalSearch fsIndexOnly serverProbe idleConnection
            (plainRequest "GET" "/probe")).httpResponse.m_nc = idleConnection)) ∧
    processRequest literalSearch fsIndexOnly serverProbe idleConnection
        (plainRequest "GET" "/probe") =
      { events := [Event.matchTested 0, Event.invoked 0],
        httpResponse :=
          { m_nc := { flags := 0, wire := [] }, m_status := 200, m_dataSent := false,
            m_headers := [], m_rootPath := "/www".toList } } :=
  ⟨⟨entryOf "GET" "/probe" idleHandler,
      by simp [serverProbe], by decide⟩,
    processRequest_handler_only literalSearch fsIndexOnly serverProbe idleConnection
      (plainRequest "GET" "/probe")
      ⟨entryOf "GET" "/probe" idleHandler,
        by simp [serverProbe], by decide⟩,
    by decide⟩

end WebServer

namespace WebServer

/-! ## Header keys -/

theorem StrMap.assign_assign (k v1 v2 : Str) (m : StrMap) :
    StrMap.assign k v2 (StrMap.assign k v1 m) = StrMap.assign k v2 m := by
  induction m with
  | nil => simp [StrMap.assign]
  | cons e rest ih =>
    obtain ⟨k0, v0⟩ := e
    by_cases h1 : k = k0
    · simp [StrMap.assign, h1]
    · by_cases h2 : k < k0
      · simp [StrMap.assign, h1, h2]
      · simp [StrMap.assign, h1, h2, ih]

theorem StrMap.mem_assign_of_ne (k v : Str) (m : StrMap) (e : Str × Str) (he : e.1 ≠ k) :
    e ∈ StrMap.assign k v m ↔ e ∈ m := by
  have hne : e ≠ (k, v) := fun h => he (by rw [h])
  induction m with
  | nil => simp [StrMap.assign, hne]
  | cons e0 rest ih =>
    obtain ⟨k0, v0⟩ := e0
    by_cases h1 : k = k0
    · have hne0 : e ≠ (k0, v0) := fun h => he (by rw [h, h1])
      simp [StrMap.assign, h1, hne, hne0]
      intro h
      exact absurd h (fun h => he (by rw [h, h1]))
    · by_cases h2 : k < k0
      · simp [StrMap.assign, h1, h2, hne]
      · simp [StrMap.assign, h1, h2, ih]

theorem StrMap.ordered_cons (k0 v0 : Str) (rest : StrMap) :
    StrMap.ordered ((k0, v0) :: rest) ↔
      (∀ b ∈ StrMap.keys rest, k0 < b) ∧ StrMap.ordered rest := by
  simp [StrMap.ordered, StrMap.keys]

/-- The assignment keeps the keys in strictly increasing order. -/
theorem StrMap.ordered_assign (k v : Str) (m : StrMap) (hord : StrMap.ordered m) :
    StrMap.ordered (StrMap.assign k v m) := by
  induction m with
  | nil => simp [StrMap.assign, StrMap.ordered, StrMap.keys]
  | cons e rest ih =>
    obtain ⟨k0, v0⟩ := e
    obtain ⟨hhead, hrest⟩ := (StrMap.ordered_cons k0 v0 rest).mp hord
    unfold StrMap.assign
    by_cases h1 : k = k0
    · subst h1
      simp only [if_true]
      exact (StrMap.ordered_cons k v rest).mpr ⟨hhead, hrest⟩
    · simp only [h1, if_false]
      by_cases h2 : k < k0
      · simp only [h2, if_true]
        refine (StrMap.ordered_cons k v _).mpr ⟨?_, hord⟩
        intro b hb
        simp only [StrMap.keys, List.map_cons, List.mem_cons] at hb
        rcases hb with rfl | hb
        · exact h2
        · exact lt_trans h2 (hhead b hb)
      · simp only [h2, if_false]
        refine (StrMap.ordered_cons k0 v0 _).mpr ⟨?_, ih hrest⟩
        intro b hb
        rcases (StrMap.mem_keys_assign k v b rest).mp hb with rfl | hb
        · exact lt_of_le_of_ne (not_lt.mp h2) (Ne.symm h1)
        · exact hhead b hb

/-- In an ordered map the assigned key is held by one entry. -/
theorem StrMap.count_keys_assign (k v : Str) (m : StrMap) (hord : StrMap.ordered m) :
    (StrMap.keys (StrMap.assign k v m)).count k = 1 := by
  induction m with
  | nil => simp [StrMap.assign, StrMap.keys]
  | cons e rest ih =>
    obtain ⟨k0, v0⟩ := e
    obtain ⟨hhead, hrest⟩ := (StrMap.ordered_cons k0 v0 rest).mp hord
    unfold StrMap.assign
    by_cases h1 : k = k0
    · subst h1
      have habsent : k ∉ StrMap.keys rest := fun h => lt_irrefl k (hhead k h)
      simp only [if_true]
      simp [StrMap.keys] at habsent ⊢
      rw [List.count_eq_zero_of_not_mem]
      simpa using habsent
    · simp only [h1, if_false]
      by_cases h2 : k < k0
      · have habsent : k ∉ StrMap.keys rest :=
          fun h => lt_irrefl k (lt_trans h2 (hhead k h))
        simp only [h2, if_true]
        simp only [StrMap.keys, List.map_cons, List.count_cons_self]
        have hzero : List.count k (List.map Prod.fst rest) = 0 :=
          List.count_eq_zero_of_not_mem habsent
        rw [List.count_cons_of_ne h1, hzero]
      · simp only [h2, if_false]
        simp only [StrMap.keys, List.map_cons]
        rw [List.count_cons_of_ne h1]
        exact ih hrest

/-- C14: after `addHeader(n, v1)` and then `addHeader(n, v2)` on a response whose header
map is a well-formed `std::map`, the map sends `n` to `v2` and has one entry with the key
`n`; the entries under every other key are those from before, and the status, the sent
flag, the connection and the root path are unchanged. -/
theorem addHeader_twice (r : HTTPResponse) (n v1 v2 : Str) (hord : r.m_headers.ordered) :
    ((r.addHeader n v1).addHeader n v2).m_headers.find n = some v2 ∧
    ((r.addHeader n v1).addHeader n v2).m_headers.keys.count n = 1 ∧
    (∀ e : Str × Str, e.1 ≠ n →
      (e ∈ ((r.addHeader n v1).addHeader n v2).m_headers ↔ e ∈ r.m_headers)) ∧
    (∀ x : Str, x ≠ n →
      ((r.addHeader n v1).addHeader n v2).m_headers.find x = r.m_headers.find x) ∧
    ((r.addHeader n v1).addHeader n v2).m_headers.ordered ∧
    ((r.addHeader n v1).addHeader n v2).m_status = r.m_status ∧
    ((r.addHeader n v1).addHeader n v2).m_dataSent = r.m_dataSent ∧
    ((r.addHeader n v1).addHeader n v2).m_nc = r.m_nc ∧
    ((r.addHeader n v1).addHeader n v2).m_rootPath = r.m_rootPath := by
  have hheaders : ((r.addHeader n v1).addHeader n v2).m_headers =
      StrMap.assign n v2 r.m_headers := by
    simp [HTTPResponse.addHeader, StrMap.assign_assign]
  refine ⟨?_, ?_, ?_, ?_, ?_, rfl, rfl, rfl, rfl⟩
  · rw [hheaders, StrMap.find_assign]; simp
  · rw [hheaders]; exact StrMap.count_keys_assign n v2 _ hord
  · intro e he
    rw [hheaders]; exact StrMap.mem_assign_of_ne n v2 _ e he
  · intro x hx
    rw [hheaders, StrMap.find_assign]; simp [hx]
  · rw [hheaders]; exact StrMap.ordered_assign n v2 _ hord

/-- C14, on a response holding the header A: 1, with B added as x and then as y. -/
theorem addHeader_twice_witness :
    ((HTTPResponse.new idleConnection).addHeader "A".toList "1".toList).m_headers.ordered ∧
    ((((HTTPResponse.new idleConnection).addHeader "A".toList "1".toList).addHeader
          "B".toList "x".toList).addHeader "B".toList "y".toList).m_headers =
      [("A".toList, "1".toList), ("B".toList, "y".toList)] ∧
    ((((HTTPResponse.new idleConnection).addHeader "A".toList "1".toList).addHeader
          "B".toList "x".toList).addHeader "B".toList "y".toList).m_headers.keys.count
        "B".toList = 1 :=
  ⟨by simp [StrMap.ordered, StrMap.keys, HTTPResponse.addHeader, HTTPResponse.new,
      StrMap.assign],
    by decide,
    (addHeader_twice ((HTTPResponse.new idleConnection).addHeader "A".toList "1".toList)
      "B".toList "x".toList "y".toList
      (by simp [StrMap.ordered, StrMap.keys, HTTPResponse.addHeader, HTTPResponse.new,
        StrMap.assign])).2.1⟩

end WebServer

namespace WebServer

/-! ## Sequences of calls: at most one send -/

theorem HTTPResponse.calls_append (r : HTTPResponse) (a b : List ResponseCall) :
    r.calls (a ++ b) = (r.calls a).calls b := by
  simp [HTTPResponse.calls, List.foldl_append]

theorem HTTPResponse.calls_cons (r : HTTPResponse) (op : ResponseCall)
    (ops : List ResponseCall) : r.calls (op :: ops) = (r.call op).calls ops := rfl

/-- A call other than `sendData` leaves the connection and the sent flag alone. -/
theorem HTTPResponse.call_not_send (r : HTTPResponse) (op : ResponseCall)
    (hop : op.isSend = false) :
    (r.call op).m_nc = r.m_nc ∧ (r.call op).m_dataSent = r.m_dataSent := by
  cases op with
  | setStatus status => exact ⟨rfl, rfl⟩
  | addHeader name value => exact ⟨rfl, rfl⟩
  | setHeaders headers => exact ⟨rfl, rfl⟩
  | sendData pData => simp [ResponseCall.isSend] at hop

theorem HTTPResponse.calls_not_send (r : HTTPResponse) (ops : List ResponseCall)
    (hops : ∀ op ∈ ops, op.isSend = false) :
    (r.calls ops).m_nc = r.m_nc ∧ (r.calls ops).m_dataSent = r.m_dataSent := by
  induction ops generalizing r with
  | nil => exact ⟨rfl, rfl⟩
  | cons op rest ih =>
    have hop := HTTPResponse.call_not_send r op (hops op (List.mem_cons_self _ _))
    have hrest := ih (r.call op) (fun o ho => hops o (List.mem_cons_of_mem _ ho))
    rw [HTTPResponse.calls_cons]
    exact ⟨hrest.1.trans hop.1, hrest.2.trans hop.2⟩

/-- Once the sent flag is on, no call changes the connection or the flag. -/
theorem HTTPResponse.call_after_send (r : HTTPResponse) (op : ResponseCall)
    (hsent : r.m_dataSent = true) :
    (r.call op).m_nc = r.m_nc ∧ (r.call op).m_dataSent = true := by
  cases op with
  | setStatus status => exact ⟨rfl, hsent⟩
  | addHeader name value => exact ⟨rfl, hsent⟩
  | setHeaders headers => exact ⟨rfl, hsent⟩
  | sendData pData => simp [HTTPResponse.call, HTTPResponse.sendData, hsent]

theorem HTTPResponse.calls_after_send (r : HTTPResponse) (ops : List ResponseCall)
    (hsent : r.m_dataSent = true) :
    (r.calls ops).m_nc = r.m_nc ∧ (r.calls ops).m_dataSent = true := by
  induction ops generalizing r with
  | nil => exact ⟨rfl, hsent⟩
  | cons op rest ih =>
    have hop := HTTPResponse.call_after_send r op hsent
    have hrest := ih (r.call op) hop.2
    rw [HTTPResponse.calls_cons]
    exact ⟨hrest.1.trans hop.1, hrest.2⟩

theorem exists_first_send (ops : List ResponseCall) (h : ∃ op ∈ ops, op.isSend = true) :
    ∃ before pData after, ops = before ++ ResponseCall.sendData pData :: after ∧
      ∀ op ∈ before, op.isSend = false := by
  induction ops with
  | nil => simp at h
  | cons a rest ih =>
    cases ha : a.isSend with
    | true =>
      cases a with
      | sendData pData => exact ⟨[], pData, rest, rfl, by simp⟩
      | setStatus status => simp [ResponseCall.isSend] at ha
      | addHeader name value => simp [ResponseCall.isSend] at ha
      | setHeaders headers => simp [ResponseCall.isSend] at ha
    | false =>
      have hrest : ∃ op ∈ rest, op.isSend = true := by
        obtain ⟨op, hop, hsend⟩ := h
        rcases List.mem_cons.mp hop with rfl | hop
        · rw [ha] at hsend; exact absurd hsend (by simp)
        · exact ⟨op, hop, hsend⟩
      obtain ⟨before, pData, after, hsplit, hbefore⟩ := ih hrest
      refine ⟨a :: before, pData, after, by simp [hsplit], ?_⟩
      intro op hop
      rcases List.mem_cons.mp hop with rfl | hop
      · exact ha
      · exact hbefore op hop

/-- What is on the wire after a sequence of calls on a fresh response whose first
`sendData` is the call after `before`. -/
theorem HTTPResponse.calls_first_send (mgConnection : mg_connection)
    (before : List ResponseCall) (pData : Str) (after : List ResponseCall)
    (hbefore : ∀ op ∈ before, op.isSend = false) :
    ((HTTPResponse.new mgConnection).calls
        (before ++ ResponseCall.sendData pData :: after)).m_nc.wire =
      mgConnection.wire ++
        [WireOp.send_head ((HTTPResponse.new mgConnection).calls before).m_status pData.length
           (sendData_headers ((HTTPResponse.new mgConnection).calls before).m_headers),
         WireOp.send pData] := by
  have hpre := HTTPResponse.calls_not_send (HTTPResponse.new mgConnection) before hbefore
  have hfresh : ((HTTPResponse.new mgConnection).calls before).m_dataSent = false := hpre.2
  have hnc : ((HTTPResponse.new mgConnection).calls before).m_nc = mgConnection := hpre.1
  rw [HTTPResponse.calls_append, HTTPResponse.calls_cons]
  have hsent : (((HTTPResponse.new mgConnection).calls before).call
      (ResponseCall.sendData pData)).m_dataSent = true := by
    simp [HTTPResponse.call, HTTPResponse.sendData, hfresh]
  rw [(HTTPResponse.calls_after_send _ after hsent).1]
  simp [HTTPResponse.call, HTTPResponse.sendData, hfresh, hnc]

/-- C15: after any finite sequence of `setStatus`, `addHeader`, `setHeaders` and
`sendData` calls on a fresh response, the connection has received nothing or one head and
one payload; without a `sendData` in the sequence it is untouched, and with one the head
carries the status and the header text the response held when the first `sendData` was
called and the payload is the one of that call, whatever the later calls are. -/
theorem sendData_at_most_once (mgConnection : mg_connection) (ops : List ResponseCall) :
    (∃ sent : List WireOp,
      ((HTTPResponse.new mgConnection).calls ops).m_nc.wire = mgConnection.wire ++ sent ∧
      (sent = [] ∨ ∃ (status : Int) (headers pData : Str),
        sent = [WireOp.send_head status pData.length headers, WireOp.send pData])) ∧
    ((∀ op ∈ ops, op.isSend = false) →
      ((HTTPResponse.new mgConnection).calls ops).m_nc = mgConnection) ∧
    (∀ (before : List ResponseCall) (pData : Str) (after : List ResponseCall),
      ops = before ++ ResponseCall.sendData pData :: after →
      (∀ op ∈ before, op.isSend = false) →
      ((HTTPResponse.new mgConnection).calls ops).m_nc.wire =
        mgConnection.wire ++
          [WireOp.send_head ((HTTPResponse.new mgConnection).calls before).m_status
             pData.length
             (sendData_headers ((HTTPResponse.new mgConnection).calls before).m_headers),
           WireOp.send pData]) := by
  refine ⟨?_, ?_, ?_⟩
  · by_cases hsend : ∃ op ∈ ops, op.isSend = true
    · obtain ⟨before, pData, after, hsplit, hbefore⟩ := exists_first_send ops hsend
      refine ⟨[WireOp.send_head ((HTTPResponse.new mgConnection).calls before).m_status
          pData.length
          (sendData_headers ((HTTPResponse.new mgConnection).calls before).m_headers),
        WireOp.send pData], ?_, Or.inr ⟨_, _, pData, rfl⟩⟩
      rw [hsplit]
      exact HTTPResponse.calls_first_send mgConnection before pData after hbefore
    · have hnone : ∀ op ∈ ops, op.isSend = false := by
        intro op hop
        cases hop2 : op.isSend with
        | false => rfl
        | true => exact absurd ⟨op, hop, hop2⟩ hsend
      refine ⟨[], ?_, Or.inl rfl⟩
      rw [(HTTPResponse.calls_not_send _ ops hnone).1]
      simp [HTTPResponse.new]
  · intro hnone
    exact (HTTPResponse.calls_not_send _ ops hnone).1
  · intro before pData after hsplit hbefore
    rw [hsplit]
    exact HTTPResponse.calls_first_send mgConnection before pData after hbefore

/-- C15, at the calls setStatus(201), addHeader(A, 1), sendData(one), setStatus(500),
addHeader(B, 2), sendData(two): one head with status 201 and the payload `one`. -/
theorem sendData_at_most_once_witness :
    ([ResponseCall.setStatus 201, ResponseCall.addHeader "A".toList "1".toList,
        ResponseCall.sendData "one".toList, ResponseCall.setStatus 500,
        ResponseCall.addHeader "B".toList "2".toList, ResponseCall.sendData "two".toList] =
      [ResponseCall.setStatus 201, ResponseCall.addHeader "A".toList "1".toList] ++
        ResponseCall.sendData "one".toList ::
          [ResponseCall.setStatus 500, ResponseCall.addHeader "B".toList "2".toList,
            ResponseCall.sendData "two".toList]) ∧
    (∀ op ∈ [ResponseCall.setStatus 201, ResponseCall.addHeader "A".toList "1".toList],
      op.isSend = false) ∧
    ((HTTPResponse.new idleConnection).calls
        [ResponseCall.setStatus 201, ResponseCall.addHeader "A".toList "1".toList,
          ResponseCall.sendData "one".toList, ResponseCall.setStatus 500,
          ResponseCall.addHeader "B".toList "2".toList,
          ResponseCall.sendData "two".toList]).m_nc.wire =
      idleConnection.wire ++
        [WireOp.send_head
           ((HTTPResponse.new idleConnection).calls
             [ResponseCall.setStatus 201,
               ResponseCall.addHeader "A".toList "1".toList]).m_status
           "one".toList.length
           (sendData_headers ((HTTPResponse.new idleConnection).calls
             [ResponseCall.setStatus 201,
               ResponseCall.addHeader "A".toList "1".toList]).m_headers),
         WireOp.send "one".toList] ∧
    ((HTTPResponse.new idleConnection).calls
        [ResponseCall.setStatus 201, ResponseCall.addHeader "A".toList "1".toList,
          ResponseCall.sendData "one".toList, ResponseCall.setStatus 500,
          ResponseCall.addHeader "B".toList "2".toList,
          ResponseCall.sendData "two".toList]).m_nc.wire =
      [WireOp.send_head 201 3 "A: 1".toList, WireOp.send "one".toList] :=
  ⟨rfl, by decide,
    (sendData_at_most_once idleConnection
      [ResponseCall.setStatus 201, ResponseCall.addHeader "A".toList "1".toList,
        ResponseCall.sendData "one".toList, ResponseCall.setStatus 500,
        ResponseCall.addHeader "B".toList "2".toList,
        ResponseCall.sendData "two".toList]).2.2
      [ResponseCall.setStatus 201, ResponseCall.addHeader "A".toList "1".toList]
      "one".toList
      [ResponseCall.setStatus 500, ResponseCall.addHeader "B".toList "2".toList,
        ResponseCall.sendData "two".toList]
      rfl (by decide),
    by decide⟩

end WebServer

namespace WebServer

/-! ## Query strings: bare names, delimiters, and what the map can hold -/

/-- With an `=` after the last `&` (or an `=` and no `&`) the scanner ends in
`STATE_VALUE`. -/
theorem getQuery_scan_ends_in_value (q upToLastAmp tail : Str)
    (hq : q = upToLastAmp ++ tail)
    (hlast : upToLastAmp = [] ∨ upToLastAmp.getLast? = some '&')
    (hamp : '&' ∉ tail) (heq : '=' ∈ tail) :
    (getQuery_scan q).state = STATE_VALUE := by
  have hpre : (upToLastAmp.foldl getQuery_step getQuery_init).state = STATE_NAME := by
    rcases hlast with h | h
    · subst h; rfl
    · obtain ⟨ys, hys⟩ := List.getLast?_eq_some_iff.mp h
      rw [hys, List.foldl_append]
      exact getQuery_step_amp_state _ (getQuery_scan_state ys getQuery_init (Or.inl rfl))
  obtain ⟨n, v, htail, hn⟩ := List.eq_append_cons_of_mem heq
  have hv : '&' ∉ v := fun h => hamp (by rw [htail]; simp [h])
  rw [getQuery_scan, hq, htail, List.foldl_append, getQuery_scan_pair _ n v hpre hn hv]

/-- C17: when the query string `q` has an `=` after its last `&` (or an `=` and no `&`)
and `n` contains no `=`, `getQuery` on `q`, `&`, `n` in a row returns the map it returns
on `q`: the bare name at the end is dropped and the earlier pairs are kept. -/
theorem getQuery_trailing_name (r : HTTPRequest) (upToLastAmp tail n : Str)
    (hq : r.m_message.query_string = upToLastAmp ++ tail)
    (hlast : upToLastAmp = [] ∨ upToLastAmp.getLast? = some '&')
    (hamp : '&' ∉ tail) (heq : '=' ∈ tail) (hn : '=' ∉ n) :
    HTTPRequest.getQuery
        { m_message :=
            { r.m_message with query_string := r.m_message.query_string ++ '&' :: n } } =
      r.getQuery := by
  have hstate := getQuery_scan_ends_in_value r.m_message.query_string upToLastAmp tail hq
    hlast hamp heq
  have hscan : getQuery_scan (r.m_message.query_string ++ '&' :: n) =
      n.foldl getQuery_step (getQuery_step (getQuery_scan r.m_message.query_string) '&') := by
    simp [getQuery_scan, List.foldl_append]
  simp only [HTTPRequest.getQuery, mgStrToString]
  rw [hscan, getQuery_step_commit _ hstate, getQuery_scan_name _ n rfl hn]
  simp [getQuery_finish, hstate, STATE_NAME, STATE_VALUE]

/-- C17, at the query string `a=1&b`: the result is the map a -> 1. -/
theorem getQuery_trailing_name_witness :
    ((queryRequest "a=1").m_message.query_string = [] ++ "a=1".toList ∧
      (([] : Str) = [] ∨ ([] : Str).getLast? = some '&') ∧
      '&' ∉ "a=1".toList ∧ '=' ∈ "a=1".toList ∧ '=' ∉ "b".toList) ∧
    (queryRequest "a=1&b").getQuery = (queryRequest "a=1").getQuery ∧
    (queryRequest "a=1&b").getQuery = [("a".toList, "1".toList)] :=
  ⟨⟨rfl, Or.inl rfl, by decide, by decide, by decide⟩,
    getQuery_trailing_name (queryRequest "a=1") [] "a=1".toList "b".toList rfl (Or.inl rfl)
      (by decide) (by decide) (by decide),
    by decide⟩

/-- C18: for a name `n` without `=` (it may hold `&`) and a value `v` without `&` (it may
hold `=`), `getQuery` on `n`, `=`, `v` in a row returns the map with the single entry
`n -> v`. -/
theorem getQuery_single_pair (r : HTTPRequest) (n v : Str)
    (hq : r.m_message.query_string = n ++ '=' :: v) (hn : '=' ∉ n) (hv : '&' ∉ v) :
    r.getQuery = [(n, v)] := by
  simp only [HTTPRequest.getQuery, mgStrToString, getQuery_scan, hq]
  rw [getQuery_scan_pair getQuery_init n v rfl hn hv]
  simp [getQuery_finish, getQuery_init, StrMap.assign]

/-- C18, at the query strings `a&b=1` and `a=b=c`. -/
theorem getQuery_single_pair_witness :
    (((queryRequest "a&b=1").m_message.query_string = "a&b".toList ++ '=' :: "1".toList ∧
        '=' ∉ "a&b".toList ∧ '&' ∉ "1".toList) ∧
      (queryRequest "a&b=1").getQuery = [("a&b".toList, "1".toList)]) ∧
    (((queryRequest "a=b=c").m_message.query_string = "a".toList ++ '=' :: "b=c".toList ∧
        '=' ∉ "a".toList ∧ '&' ∉ "b=c".toList) ∧
      (queryRequest "a=b=c").getQuery = [("a".toList, "b=c".toList)]) :=
  ⟨⟨⟨rfl, by decide, by decide⟩,
      getQuery_single_pair (queryRequest "a&b=1") "a&b".toList "1".toList rfl (by decide)
        (by decide)⟩,
    ⟨⟨rfl, by decide, by decide⟩,
      getQuery_single_pair (queryRequest "a=b=c") "a".toList "b=c".toList rfl (by decide)
        (by decide)⟩⟩

theorem StrMap.mem_assign (k v : Str) (m : StrMap) (e : Str × Str)
    (he : e ∈ StrMap.assign k v m) : e = (k, v) ∨ e ∈ m := by
  induction m with
  | nil => simpa [StrMap.assign] using he
  | cons e0 rest ih =>
    obtain ⟨k0, v0⟩ := e0
    unfold StrMap.assign at he
    by_cases h1 : k = k0
    · simp only [h1, if_true, List.mem_cons] at he
      rcases he with h | h
      · exact Or.inl (by rw [h, h1])
      · exact Or.inr (List.mem_cons_of_mem _ h)
    · simp only [h1, if_false] at he
      by_cases h2 : k < k0
      · simp only [h2, if_true, List.mem_cons] at he
        rcases he with h | h | h
        · exact Or.inl h
        · exact Or.inr (by rw [h]; exact List.mem_cons_self _ _)
        · exact Or.inr (List.mem_cons_of_mem _ h)
      · simp only [h2, if_false, List.mem_cons] at he
        rcases he with h | h
        · exact Or.inr (by rw [h]; exact List.mem_cons_self _ _)
        · rcases ih h with h3 | h3
          · exact Or.inl h3
          · exact Or.inr (List.mem_cons_of_mem _ h3)

theorem StrMap.length_assign_le (k v : Str) (m : StrMap) :
    (StrMap.assign k v m).length ≤ m.length + 1 := by
  induction m with
  | nil => simp [StrMap.assign]
  | cons e0 rest ih =>
    obtain ⟨k0, v0⟩ := e0
    unfold StrMap.assign
    by_cases h1 : k = k0
    · simp [h1]
    · by_cases h2 : k < k0
      · simp [h1, h2]
      · simp only [h1, h2, if_false, List.length_cons]
        omega

end WebServer

namespace WebServer

theorem getQuery_step_name (s : QueryScan) (c : Char) (hstate : s.state = STATE_NAME)
    (hc : c ≠ '=') : getQuery_step s c = { s with name := s.name ++ [c] } := by
  simp [getQuery_step, hstate, hc]

theorem getQuery_step_equals (s : QueryScan) (hstate : s.state = STATE_NAME) :
    getQuery_step s '=' = { s with state := STATE_VALUE, value := [] } := by
  simp [getQuery_step, hstate]

theorem getQuery_step_value (s : QueryScan) (c : Char) (hstate : s.state = STATE_VALUE)
    (hc : c ≠ '&') : getQuery_step s c = { s with value := s.value ++ [c] } := by
  simp [getQuery_step, hstate, hc, STATE_NAME, STATE_VALUE]

theorem getQuery_step_neither (s : QueryScan) (c : Char) (h1 : s.state ≠ STATE_NAME)
    (h2 : s.state ≠ STATE_VALUE) : getQuery_step s c = s := by
  simp [getQuery_step, h1, h2]

/-- One character keeps: no `=` in the pending name, no `&` in the pending value, and
neither in the keys and values committed so far. -/
theorem getQuery_step_clean (s : QueryScan) (c : Char)
    (hname : '=' ∉ s.name) (hvalue : '&' ∉ s.value)
    (hmap : ∀ e ∈ s.queryMap, '=' ∉ e.1 ∧ '&' ∉ e.2) :
    '=' ∉ (getQuery_step s c).name ∧ '&' ∉ (getQuery_step s c).value ∧
      ∀ e ∈ (getQuery_step s c).queryMap, '=' ∉ e.1 ∧ '&' ∉ e.2 := by
  by_cases h1 : s.state = STATE_NAME
  · by_cases hc : c = '='
    · subst hc
      rw [getQuery_step_equals s h1]
      exact ⟨hname, by simp, hmap⟩
    · rw [getQuery_step_name s c h1 hc]
      refine ⟨?_, hvalue, hmap⟩
      have hc2 : ¬ '=' = c := fun h => hc h.symm
      simp [hname, hc2]
  · by_cases h2 : s.state = STATE_VALUE
    · by_cases hc : c = '&'
      · subst hc
        rw [getQuery_step_commit s h2]
        refine ⟨by simp, hvalue, ?_⟩
        intro e he
        rcases StrMap.mem_assign _ _ _ e he with h | h
        · rw [h]; exact ⟨hname, hvalue⟩
        · exact hmap e h
      · rw [getQuery_step_value s c h2 hc]
        refine ⟨hname, ?_, hmap⟩
        have hc2 : ¬ '&' = c := fun h => hc h.symm
        simp [hvalue, hc2]
    · rw [getQuery_step_neither s c h1 h2]
      exact ⟨hname, hvalue, hmap⟩

theorem getQuery_scan_clean (q : Str) (s : QueryScan)
    (hname : '=' ∉ s.name) (hvalue : '&' ∉ s.value)
    (hmap : ∀ e ∈ s.queryMap, '=' ∉ e.1 ∧ '&' ∉ e.2) :
    '=' ∉ (q.foldl getQuery_step s).name ∧ '&' ∉ (q.foldl getQuery_step s).value ∧
      ∀ e ∈ (q.foldl getQuery_step s).queryMap, '=' ∉ e.1 ∧ '&' ∉ e.2 := by
  induction q generalizing s with
  | nil => exact ⟨hname, hvalue, hmap⟩
  | cons c cs ih =>
    obtain ⟨h1, h2, h3⟩ := getQuery_step_clean s c hname hvalue hmap
    exact ih (getQuery_step s c) h1 h2 h3

theorem getQuery_step_pairsSeen (s : QueryScan) (c : Char) :
    getQuery_pairsSeen (getQuery_step s c) ≤
      getQuery_pairsSeen s + (if c = '=' then 1 else 0) := by
  have hne : ¬ STATE_NAME = STATE_VALUE := by decide
  by_cases h1 : s.state = STATE_NAME
  · have h2 : ¬ s.state = STATE_VALUE := by rw [h1]; exact hne
    by_cases hc : c = '='
    · subst hc
      rw [getQuery_step_equals s h1]
      simp [getQuery_pairsSeen, h2]
    · rw [getQuery_step_name s c h1 hc]
      simp [getQuery_pairsSeen, h2]
  · by_cases h2 : s.state = STATE_VALUE
    · by_cases hc : c = '&'
      · subst hc
        have hlen := StrMap.length_assign_le s.name s.value s.queryMap
        rw [getQuery_step_commit s h2]
        simp only [getQuery_pairsSeen, h2, if_true, hne, if_false]
        omega
      · rw [getQuery_step_value s c h2 hc]
        simp [getQuery_pairsSeen, h2]
    · rw [getQuery_step_neither s c h1 h2]
      omega

theorem getQuery_scan_pairsSeen (q : Str) (s : QueryScan) :
    getQuery_pairsSeen (q.foldl getQuery_step s) ≤ getQuery_pairsSeen s + q.count '=' := by
  induction q generalizing s with
  | nil => simp
  | cons c cs ih =>
    have hstep := getQuery_step_pairsSeen s c
    have hrest := ih (getQuery_step s c)
    simp only [List.foldl_cons]
    by_cases hc : c = '='
    · subst hc
      simp only [if_true] at hstep
      rw [List.count_cons_self]
      omega
    · simp only [hc, if_false] at hstep
      rw [List.count_cons_of_ne (Ne.symm hc)]
      omega

theorem getQuery_finish_length (s : QueryScan) :
    (getQuery_finish s).length ≤ getQuery_pairsSeen s := by
  unfold getQuery_finish getQuery_pairsSeen
  have hlen := StrMap.length_assign_le s.name s.value s.queryMap
  split <;> omega

/-- C19: for every query string, no key of the map `getQuery` returns contains `=`, no
value contains `&`, and the map has at most as many entries as the query string has `=`
characters. -/
theorem getQuery_keys_values (r : HTTPRequest) :
    (∀ e ∈ r.getQuery, '=' ∉ e.1 ∧ '&' ∉ e.2) ∧
    r.getQuery.length ≤ r.m_message.query_string.count '=' := by
  refine ⟨?_, ?_⟩
  · obtain ⟨hname, hvalue, hmap⟩ :=
      getQuery_scan_clean r.m_message.query_string getQuery_init (by simp [getQuery_init])
        (by simp [getQuery_init]) (by simp [getQuery_init])
    intro e he
    simp only [HTTPRequest.getQuery, mgStrToString, getQuery_scan, getQuery_finish] at he
    split at he
    · rcases StrMap.mem_assign _ _ _ e he with h | h
      · rw [h]; exact ⟨hname, hvalue⟩
      · exact hmap e h
    · exact hmap e he
  · have h1 := getQuery_finish_length (getQuery_scan r.m_message.query_string)
    have h2 := getQuery_scan_pairsSeen r.m_message.query_string getQuery_init
    have h3 : getQuery_pairsSeen getQuery_init = 0 := by decide
    simp only [HTTPRequest.getQuery, mgStrToString]
    rw [getQuery_scan] at h1
    rw [getQuery_scan]
    omega

/-- C19, at the query string `a=b=c&d&e=f&&g`: two entries for three `=`, the keys free
of `=` and the values free of `&`. -/
theorem getQuery_keys_values_witness :
    (queryRequest "a=b=c&d&e=f&&g").getQuery =
      [("a".toList, "b=c".toList), ("d&e".toList, "f".toList)] ∧
    ('=' ∉ ("d&e".toList, "f".toList).1 ∧ '&' ∉ ("d&e".toList, "f".toList).2) ∧
    (queryRequest "a=b=c&d&e=f&&g").getQuery.length ≤
      (queryRequest "a=b=c&d&e=f&&g").m_message.query_string.count '=' :=
  ⟨by decide,
    (getQuery_keys_values (queryRequest "a=b=c&d&e=f&&g")).1 ("d&e".toList, "f".toList)
      (by decide),
    (getQuery_keys_values (queryRequest "a=b=c&d&e=f&&g")).2⟩

end WebServer

namespace WebServer

/-! ## Path segments: the split is structural -/

/-- What `std::getline` extracts: the whole input when it holds no delimiter, else the
part before the first delimiter, with the part after it left unread. -/
theorem getline_extract_spec (s : Str) :
    ('/' ∉ s ∧ getline_extract '/' s = (s, [])) ∨
      ∃ line rest, s = line ++ '/' :: rest ∧ '/' ∉ line ∧
        getline_extract '/' s = (line, rest) := by
  induction s with
  | nil => exact Or.inl ⟨by simp, rfl⟩
  | cons c cs ih =>
    by_cases hc : c = '/'
    · subst hc
      exact Or.inr ⟨[], cs, rfl, by simp, by simp [getline_extract]⟩
    · have hc2 : ¬ '/' = c := fun h => hc h.symm
      rcases ih with ⟨hno, hex⟩ | ⟨line, rest, hs, hline, hex⟩
      · exact Or.inl ⟨by simp [hno, hc2], by simp [getline_extract, hc, hex]⟩
      · exact Or.inr ⟨c :: line, rest, by simp [hs], by simp [hline, hc2],
          by simp [getline_extract, hc, hex]⟩

theorem pathSplit_loop_of_ne_nil (s : Str) (hs : s ≠ []) :
    pathSplit_loop s [] =
      (getline_extract '/' s).1 :: pathSplit_loop (getline_extract '/' s).2 [] := by
  cases s with
  | nil => exact absurd rfl hs
  | cons c cs =>
    rw [pathSplit_loop_cons, pathSplit_loop_append]
    simp

theorem intercalate_singleton (sep x : Str) : List.intercalate sep [x] = x := by
  simp [List.intercalate, List.intersperse]

theorem pathSplit_loop_join_aux (n : Nat) :
    ∀ s : Str, s.length ≤ n →
      (∀ seg ∈ pathSplit_loop s [], '/' ∉ seg) ∧
      List.intercalate ['/'] (pathSplit_loop s []) =
        (if s.getLast? = some '/' then s.dropLast else s) ∧
      (s ≠ [] → pathSplit_loop s [] ≠ []) := by
  induction n with
  | zero =>
    intro s hlen
    have hnil : s = [] := List.length_eq_zero.mp (Nat.le_zero.mp hlen)
    subst hnil
    simp [pathSplit_loop_nil, List.intercalate]
  | succ n ih =>
    intro s hlen
    by_cases hs : s = []
    · subst hs
      simp [pathSplit_loop_nil, List.intercalate]
    · have hsplit := pathSplit_loop_of_ne_nil s hs
      rcases getline_extract_spec s with ⟨hno, hex⟩ | ⟨line, rest, hdecomp, hline, hex⟩
      · rw [hex] at hsplit
        simp only [pathSplit_loop_nil] at hsplit
        have hlast : ¬ s.getLast? = some '/' :=
          fun h => hno (List.mem_of_getLast?_eq_some h)
        rw [hsplit]
        refine ⟨?_, ?_, by simp⟩
        · intro seg hseg
          rw [List.mem_singleton.mp hseg]
          exact hno
        · rw [intercalate_singleton, if_neg hlast]
      · rw [hex] at hsplit
        simp only at hsplit
        have hrestlen : rest.length ≤ n := by
          have hl : s.length = line.length + (rest.length + 1) := by
            rw [hdecomp]; simp
          omega
        obtain ⟨hsegs, hjoin, hnonempty⟩ := ih rest hrestlen
        rw [hsplit]
        refine ⟨?_, ?_, by simp⟩
        · intro seg hseg
          rcases List.mem_cons.mp hseg with h | h
          · rw [h]; exact hline
          · exact hsegs seg h
        · by_cases hrest : rest = []
          · subst hrest
            rw [pathSplit_loop_nil, intercalate_singleton, hdecomp]
            simp
          · obtain ⟨x, xs, hx⟩ := List.exists_cons_of_ne_nil hrest
            cases hsr : pathSplit_loop rest [] with
            | nil => exact absurd hsr (hnonempty hrest)
            | cons seg segs =>
              rw [hsr] at hjoin
              rw [intercalate_cons_cons, hjoin, hdecomp, hx]
              have hlast : (line ++ '/' :: x :: xs).getLast? = (x :: xs).getLast? := by
                rw [List.getLast?_append, List.getLast?_cons_cons]
                cases hl : (x :: xs).getLast? with
                | none => simp at hl
                | some y => rfl
              have hdrop : (line ++ '/' :: x :: xs).dropLast =
                  line ++ '/' :: (x :: xs).dropLast := by
                rw [List.dropLast_append_cons]
                simp [List.dropLast]
              rw [hlast, hdrop]
              split <;> simp

/-- C20: for every path, no segment `pathSplit` returns contains `/`, and the segments
joined with `/` give back the path itself when it does not end in `/`, and the path
without its final `/` when it does. -/
theorem pathSplit_join (r : HTTPRequest) :
    (∀ seg ∈ r.pathSplit, '/' ∉ seg) ∧
    List.intercalate ['/'] r.pathSplit =
      (if r.getPath.getLast? = some '/' then r.getPath.dropLast else r.getPath) := by
  have h := pathSplit_loop_join_aux r.getPath.length r.getPath (Nat.le_refl _)
  exact ⟨h.1, h.2.1⟩

/-- C20, at the paths `/x/` and `/x`: both split into the empty segment and `x`. -/
theorem pathSplit_join_witness :
    (pathRequest "/x/").pathSplit = ["".toList, "x".toList] ∧
    (pathRequest "/x").pathSplit = ["".toList, "x".toList] ∧
    '/' ∉ "x".toList ∧
    List.intercalate ['/'] (pathRequest "/x/").pathSplit =
      (if (pathRequest "/x/").getPath.getLast? = some '/'
        then (pathRequest "/x/").getPath.dropLast else (pathRequest "/x/").getPath) ∧
    List.intercalate ['/'] (pathRequest "/x/").pathSplit = "/x".toList :=
  ⟨by simp [HTTPRequest.pathSplit, HTTPRequest.getPath, mgStrToString, pathRequest,
      plainRequest, pathSplit_loop_cons, pathSplit_loop_nil, getline_extract],
    by simp [HTTPRequest.pathSplit, HTTPRequest.getPath, mgStrToString, pathRequest,
      plainRequest, pathSplit_loop_cons, pathSplit_loop_nil, getline_extract],
    (pathSplit_join (pathRequest "/x/")).1 "x".toList
      (by simp [HTTPRequest.pathSplit, HTTPRequest.getPath, mgStrToString, pathRequest,
        plainRequest, pathSplit_loop_cons, pathSplit_loop_nil, getline_extract]),
    (pathSplit_join (pathRequest "/x/")).2,
    by simp [HTTPRequest.pathSplit, HTTPRequest.getPath, mgStrToString, pathRequest,
      plainRequest, pathSplit_loop_cons, pathSplit_loop_nil, getline_extract,
      List.intercalate, List.intersperse]⟩

end WebServer
